import Mathlib

/-!
Verification development for the typesearch library (src/src/lib.rs).

The sled-backed signature store and the query engine are shallowly embedded:
* a sled tree is an association list with no duplicate keys; `treeGet`,
  `treeInsert` (replace-or-append) and `treeRemove` mirror `get`, `insert`
  and `remove`;
* a `HashSet<u64>` of function ids is a `Finset ℕ`;
* code that can panic (`unwrap` on a missing entry, a failed `assert!`)
  returns `Option`, with `none` marking the fatal abort;
* the arbitrary iteration order of a `HashSet` difference is fixed to
  ascending numeric order, and the stable `sort_by` is modelled by the
  stable `List.insertionSort` (any two stable sorts of the same list by the
  same comparator agree elementwise);
* Rust's lexicographic byte order on UTF-8 strings coincides with the
  lexicographic order on the code-point list `String.data`, which is used
  for the result comparator.
-/

/-- One stored function signature record, as in `reeves_types::FnDetail`:
crate name, ordered parameter type strings, return type string and the
pre-rendered display string `s`. -/
structure FnDetail where
  krate : String
  params : List String
  ret : String
  s : String
deriving DecidableEq

/-- Lexicographic strict order on strings via their character lists,
matching Rust's `Ord` on `str` (UTF-8 byte order equals code-point order). -/
def strLt (a b : String) : Prop := a.data < b.data

instance : DecidableRel strLt := fun a b => inferInstanceAs (Decidable (a.data < b.data))

/-- The comparator of `search` (src/src/lib.rs:209-212): compare crate names,
and on a tie compare display strings; `FdLe a b` says `a` sorts no later
than `b`. -/
def FdLe (a b : FnDetail) : Prop :=
  if a.krate = b.krate then ¬ strLt b.s a.s else strLt a.krate b.krate

instance : DecidableRel FdLe := fun a b => by
  unfold FdLe
  infer_instance

/-- Association-list lookup, mirroring `sled::Tree::get`. -/
def treeGet {K V : Type} [DecidableEq K] : List (K × V) → K → Option V
  | [], _ => none
  | (k', v) :: t, k => if k = k' then some v else treeGet t k

/-- Association-list insert, mirroring `sled::Tree::insert`: replace the
binding of an existing key, otherwise add a new binding. -/
def treeInsert {K V : Type} [DecidableEq K] : List (K × V) → K → V → List (K × V)
  | [], k, v => [(k, v)]
  | (k', v') :: t, k, v => if k = k' then (k, v) :: t else (k', v') :: treeInsert t k v

/-- Association-list removal, mirroring `sled::Tree::remove`. -/
def treeRemove {K V : Type} [DecidableEq K] : List (K × V) → K → List (K × V)
  | [], _ => []
  | (k', v') :: t, k => if k = k' then t else (k', v') :: treeRemove t k

/-- Keys bound in an association list. -/
def treeKeys {K V : Type} (t : List (K × V)) : List K := t.map Prod.fst

/-- The reserved sentinel type string for zero-parameter functions. -/
def NOARGS : String := "<NOARGS>"

/-- `MAX_RESULTS` (src/src/lib.rs:26): overall result cap of `search`. -/
def MAX_RESULTS : Nat := 500

/-- `FUZZY_SEARCH_LIMIT` (src/src/lib.rs:25): per-column fuzzy candidate limit. -/
def FUZZY_SEARCH_LIMIT : Nat := 100

/-- The persisted state of the sled database: the id counter scalar plus the
four trees `param`, `ret`, `fn` and `crate` (src/src/lib.rs:29-33,360). -/
structure Store where
  counter : Nat
  param : List (String × Finset Nat)
  ret : List (String × Finset Nat)
  fnTable : List (Nat × FnDetail)
  crate : List (String × List Nat)
deriving DecidableEq

/-- The freshly opened database: counter 0, all trees empty. -/
def emptyStore : Store := ⟨0, [], [], [], []⟩

/-- The effective parameter list used by both `add_crate` and `purge_crate`:
an empty parameter list is replaced by the `<NOARGS>` sentinel
(src/src/lib.rs:365-370,415-418). -/
def effParams (fd : FnDetail) : List String :=
  if fd.params.isEmpty then [NOARGS] else fd.params

/-- One param-tree update of `add_crate` (src/src/lib.rs:371-377): read the
id set of the type key (empty if absent), insert the id (whether or not it
was already there), write the set back. -/
def insertParam (t : List (String × Finset Nat)) (fnId : Nat) (p : String) :
    List (String × Finset Nat) :=
  treeInsert t p (insert fnId ((treeGet t p).getD ∅))

/-- The in-transaction state of `add_crate` while it walks the batch:
the three trees it mutates per detail, the running id and the collected ids. -/
structure AddState where
  param : List (String × Finset Nat)
  ret : List (String × Finset Nat)
  fnTable : List (Nat × FnDetail)
  fnId : Nat
  fnIds : List Nat
deriving DecidableEq

/-- Processing of one `FnDetail` inside `add_crate` (src/src/lib.rs:366-391):
insert the id under every (sentinel-substituted) parameter type, insert it
into the single return-type set — `assert!(isnew)` makes a pre-existing
membership fatal, modelled as `none` — record the id in the fn table and
the id list, and advance the id. -/
def addDetail (a : AddState) (fd : FnDetail) : Option AddState :=
  let param2 := (effParams fd).foldl (fun t p => insertParam t a.fnId p) a.param
  let retSet := (treeGet a.ret fd.ret).getD ∅
  if a.fnId ∈ retSet then none
  else some { param := param2,
              ret := treeInsert a.ret fd.ret (insert a.fnId retSet),
              fnTable := treeInsert a.fnTable a.fnId fd,
              fnId := a.fnId + 1,
              fnIds := a.fnIds ++ [a.fnId] }

/-- `add_crate` (src/src/lib.rs:356-397): start from the persisted counter,
process every detail in order, then store the collected id list under the
crate name and persist the advanced counter. The returned value is the
final counter, as in the source. `none` is the fatal abort of the
transaction. -/
def add_crate (st : Store) (name : String) (fds : List FnDetail) : Option (Store × Nat) := do
  let a ← fds.foldlM addDetail ⟨st.param, st.ret, st.fnTable, st.counter, []⟩
  some ({ counter := a.fnId,
          param := a.param,
          ret := a.ret,
          fnTable := a.fnTable,
          crate := treeInsert st.crate name a.fnIds }, a.fnId)

/-- One param-tree update of `purge_crate` (src/src/lib.rs:419-425): read the
id set of the type key (empty if absent), remove the id — the outcome of the
removal is deliberately ignored (`let _didremove`) — and write the set back. -/
def removeParam (t : List (String × Finset Nat)) (fnId : Nat) (p : String) :
    List (String × Finset Nat) :=
  treeInsert t p (Finset.erase ((treeGet t p).getD ∅) fnId)

/-- Processing of one recorded `(id, FnDetail)` pair inside `purge_crate`
(src/src/lib.rs:414-431): remove the id from every (sentinel-substituted)
param-type set, ignoring absence, then remove it from its return-type set,
where `assert!(didremove)` makes absence fatal (`none`). -/
def purgeDetail (pr : List (String × Finset Nat) × List (String × Finset Nat))
    (idfd : Nat × FnDetail) : Option (List (String × Finset Nat) × List (String × Finset Nat)) :=
  let param2 := (effParams idfd.2).foldl (fun t p => removeParam t idfd.1 p) pr.1
  let retSet := (treeGet pr.2 idfd.2.ret).getD ∅
  if idfd.1 ∈ retSet then some (param2, treeInsert pr.2 idfd.2.ret (Finset.erase retSet idfd.1))
  else none

/-- The `fn_tree.remove(...).unwrap()` pass of `purge_crate`
(src/src/lib.rs:410-413): sequentially remove each recorded id from the fn
table, collecting the `(id, detail)` pairs; a missing id (also a duplicate,
whose second removal finds nothing) is the fatal `unwrap`, modelled `none`. -/
def removeFns : List (Nat × FnDetail) → List Nat →
    Option (List (Nat × FnDetail) × List (Nat × FnDetail))
  | t, [] => some (t, [])
  | t, id :: ids =>
    match treeGet t id with
    | none => none
    | some fd => (removeFns (treeRemove t id) ids).map (fun r => (r.1, (id, fd) :: r.2))

/-- `purge_crate` (src/src/lib.rs:399-436): a no-op for an unknown crate;
otherwise remove the crate entry, pull every recorded id out of the fn
table, and scrub the ids from the param and ret trees. The counter is not
touched. `none` is the fatal abort. -/
def purge_crate (st : Store) (name : String) : Option Store :=
  match treeGet st.crate name with
  | none => some st
  | some fnIds => do
    let r ← removeFns st.fnTable fnIds
    let pr ← r.2.foldlM purgeDetail (st.param, st.ret)
    some { counter := st.counter,
           param := pr.1,
           ret := pr.2,
           fnTable := r.1,
           crate := treeRemove st.crate name }

/-- Modelled from the spec (§4.1 `purge_crate`, §7): the spec demands that
*every* removal during a purge — from each param-type set as well as from
the ret-type set — find the id present, absence being a fatal consistency
violation. This strict variant exists only to be compared against the
actual `purge_crate`, whose param-set removals ignore absence. -/
def purgeDetailStrict (pr : List (String × Finset Nat) × List (String × Finset Nat))
    (idfd : Nat × FnDetail) : Option (List (String × Finset Nat) × List (String × Finset Nat)) := do
  let param2 ← (effParams idfd.2).foldlM (fun t p =>
    if idfd.1 ∈ (treeGet t p).getD ∅ then
      some (treeInsert t p (Finset.erase ((treeGet t p).getD ∅) idfd.1))
    else none) pr.1
  let retSet := (treeGet pr.2 idfd.2.ret).getD ∅
  if idfd.1 ∈ retSet then some (param2, treeInsert pr.2 idfd.2.ret (Finset.erase retSet idfd.1))
  else none

/-- Modelled from the spec (§4.1 `purge_crate`, §7): the purge operation as
the spec words it, aborting when any param-set or ret-set removal fails to
find the id. Identical to `purge_crate` except for `purgeDetailStrict`. -/
def purge_crate_spec (st : Store) (name : String) : Option Store :=
  match treeGet st.crate name with
  | none => some st
  | some fnIds => do
    let r ← removeFns st.fnTable fnIds
    let pr ← r.2.foldlM purgeDetailStrict (st.param, st.ret)
    some { counter := st.counter,
           param := pr.1,
           ret := pr.2,
           fnTable := r.1,
           crate := treeRemove st.crate name }

/-- The id set a type string maps to, with an absent key read as the empty
set — the read used by both transactions (`unwrap_or_else(HashSet::new)`). -/
def lookupTy (t : List (String × Finset Nat)) (k : String) : Finset Nat :=
  (treeGet t k).getD ∅

/-- The ids the processing of a batch starting at id `c` inserts under
param-type key `k`: id `c + i` is inserted iff `k` occurs among the
effective parameters of the `i`-th detail. -/
def addedParamIds : Nat → List FnDetail → String → Finset Nat
  | _, [], _ => ∅
  | c, fd :: rest, k => (if k ∈ effParams fd then {c} else ∅) ∪ addedParamIds (c + 1) rest k

/-- The ids the processing of a batch starting at id `c` inserts under
ret-type key `k`: id `c + i` is inserted iff the `i`-th detail returns `k`. -/
def addedRetIds : Nat → List FnDetail → String → Finset Nat
  | _, [], _ => ∅
  | c, fd :: rest, k => (if fd.ret = k then {c} else ∅) ∪ addedRetIds (c + 1) rest k

/-- The ids a purge pass removes from the param-type set of key `k`:
pair `(id, fd)` contributes `id` iff `k` occurs among `fd`'s effective
parameters. -/
def pairsParamIds : List (Nat × FnDetail) → String → Finset Nat
  | [], _ => ∅
  | pr :: rest, k => (if k ∈ effParams pr.2 then {pr.1} else ∅) ∪ pairsParamIds rest k

/-- The ids a purge pass removes from the ret-type set of key `k`. -/
def pairsRetIds : List (Nat × FnDetail) → String → Finset Nat
  | [], _ => ∅
  | pr :: rest, k => (if pr.2.ret = k then {pr.1} else ∅) ∪ pairsRetIds rest k

/-- The cross-collection consistency invariant of the store: no duplicate
keys in the fn or crate trees, every held id below the counter, the id
sets of the ret (resp. param) tree containing a fn-table id exactly at its
return type (resp. effective parameter types), every id appearing in a
type set or crate list being bound in the fn table, and distinct crates
holding disjoint id lists. -/
structure StoreInv (st : Store) : Prop where
  keysF : (treeKeys st.fnTable).Nodup
  keysC : (treeKeys st.crate).Nodup
  counterDom : ∀ id fd, treeGet st.fnTable id = some fd → id < st.counter
  retMem : ∀ id fd, treeGet st.fnTable id = some fd → ∀ k, (id ∈ lookupTy st.ret k ↔ k = fd.ret)
  paramMem : ∀ id fd, treeGet st.fnTable id = some fd →
    ∀ k, (id ∈ lookupTy st.param k ↔ k ∈ effParams fd)
  retCover : ∀ k id, id ∈ lookupTy st.ret k → ∃ fd, treeGet st.fnTable id = some fd
  paramCover : ∀ k id, id ∈ lookupTy st.param k → ∃ fd, treeGet st.fnTable id = some fd
  crateCover : ∀ c ids, treeGet st.crate c = some ids →
    ∀ id ∈ ids, ∃ fd, treeGet st.fnTable id = some fd
  crateDisj : ∀ c₁ c₂ ids₁ ids₂, treeGet st.crate c₁ = some ids₁ →
    treeGet st.crate c₂ = some ids₂ → c₁ ≠ c₂ → ∀ id ∈ ids₁, id ∉ ids₂

/-- Store states reachable from the freshly opened database by successful
`add_crate` / `purge_crate` transactions. -/
inductive Reachable : Store → Prop
  | empty : Reachable emptyStore
  | add {st st2 : Store} {n : String} {fds : List FnDetail} {k : Nat} :
      Reachable st → add_crate st n fds = some (st2, k) → Reachable st2
  | purge {st st2 : Store} {n : String} :
      Reachable st → purge_crate st n = some st2 → Reachable st2

/-- Which store tree a candidate column joins against: the ret column built
for the return-type query, or a param column built for one parameter query
(src/src/lib.rs:129,140,156). -/
inductive ColKind
  | paramTree
  | retTree
deriving DecidableEq

/-- The tree a column is paired with in `candidate_types`. -/
def colTreeOf (st : Store) : ColKind → List (String × Finset Nat)
  | ColKind.paramTree => st.param
  | ColKind.retTree => st.ret

/-- One column's id set at depth `d` (src/src/lib.rs:170-176): the union of
the id sets of the column's first `min(d, len)` candidates, each looked up
in the column's tree; a candidate without an entry is the fatal
`expect("candidate type did not already have an entry in db")`, modelled
`none`. -/
def colLookupUnion (st : Store) (c : ColKind × List String) (d : Nat) : Option (Finset Nat) :=
  (c.2.take (min d c.2.length)).foldlM
    (fun s ct => (treeGet (colTreeOf st c.1) ct).map (fun ms => s ∪ ms)) ∅

/-- One column update of `iteration_fn_ids` (src/src/lib.rs:177-182):
intersect with the running set, or initialise it on the first column; the
outer `Option` is the fatal candidate-lookup abort. -/
def interStep (st : Store) (d : Nat) (acc : Option (Finset Nat)) (c : ColKind × List String) :
    Option (Option (Finset Nat)) :=
  (colLookupUnion st c d).map (fun cids =>
    match acc with
    | some s => some (s ∩ cids)
    | none => some cids)

/-- The per-depth intersection across all columns (src/src/lib.rs:168-183):
the inner `Option` is `iteration_fn_ids`, `none` until the first column is
processed. -/
def interIds (st : Store) (cols : List (ColKind × List String)) (d : Nat) :
    Option (Option (Finset Nat)) :=
  cols.foldlM (interStep st d) none

/-- The ascending listing of a finite id set, fixing the arbitrary
`HashSet` iteration order of the source to a concrete one: the numbers up
to the maximum of the set, filtered by membership. -/
def sortedIds (s : Finset Nat) : List Nat :=
  (List.range (s.sup id + 1)).filter (fun x => x ∈ s)

/-- The loop state of `search`: `fn_ids`, `fn_ids_set` and `ranges`
(src/src/lib.rs:164-166). -/
structure SearchAcc where
  fnIds : List Nat
  fnIdsSet : Finset Nat
  ranges : List (Nat × Nat)
deriving DecidableEq

/-- One depth iteration of the widening loop (src/src/lib.rs:167-190): build
the per-depth intersection — `expect("unexpectedly ran out of fn ids")` on
an empty column list is the inner `none`, made fatal — collect the ids not
yet emitted (the arbitrary `HashSet` iteration order is fixed to ascending
order), record the range they occupy, append them and mark them visited. -/
def depthStep (st : Store) (cols : List (ColKind × List String)) (d : Nat) (acc : SearchAcc) :
    Option SearchAcc :=
  match interIds st cols d with
  | none => none
  | some none => none
  | some (some inter) =>
    let newIds := sortedIds (inter \ acc.fnIdsSet)
    some ⟨acc.fnIds ++ newIds, acc.fnIdsSet ∪ newIds.toFinset,
      acc.ranges ++ [(acc.fnIds.length, acc.fnIds.length + newIds.length)]⟩

/-- The widening loop over the remaining depths, stopping once the
accumulated count reaches `MAX_RESULTS` (src/src/lib.rs:167-194). -/
def runDepths (st : Store) (cols : List (ColKind × List String)) :
    List Nat → SearchAcc → Option SearchAcc
  | [], acc => some acc
  | d :: ds, acc =>
    match depthStep st cols d acc with
    | none => none
    | some acc2 =>
      if MAX_RESULTS ≤ acc2.fnIds.length then some acc2 else runDepths st cols ds acc2

/-- `max_candidate_depth` (src/src/lib.rs:163): the longest column's length,
or 0 with no columns. -/
def maxColLen (cols : List (ColKind × List String)) : Nat :=
  ((cols.map (fun c => c.2.length)).max?).getD 0

/-- The depth counters the loop iterates: `for i in 1..max_candidate_depth`,
an exclusive range, so depths `1, …, maxColLen − 1`. -/
def searchDepths (cols : List (ColKind × List String)) : List Nat :=
  List.range' 1 (maxColLen cols - 1)

/-- The truncation fix-up of `ranges` (src/src/lib.rs:197-199): pop the last
recorded range, if any, and push it back with its end clamped to `e`. -/
def fixLast (ranges : List (Nat × Nat)) (e : Nat) : List (Nat × Nat) :=
  match ranges.getLast? with
  | none => ranges
  | some r => ranges.dropLast ++ [(r.1, e)]

/-- The id-producing part of `search` (src/src/lib.rs:163-199): run the
widening loop from the empty state, truncate `fn_ids` to the cap and shrink
the last range accordingly. -/
def searchIds (st : Store) (cols : List (ColKind × List String)) :
    Option (List Nat × List (Nat × Nat)) :=
  match runDepths st cols (searchDepths cols) ⟨[], ∅, []⟩ with
  | none => none
  | some acc =>
    some (acc.fnIds.take (min acc.fnIds.length MAX_RESULTS),
      fixLast acc.ranges (min acc.fnIds.length MAX_RESULTS))

/-- The resolution pass (src/src/lib.rs:201-206): map every retained id
through the fn tree; a missing id is the fatal double `unwrap`. -/
def resolveIds (st : Store) (ids : List Nat) : Option (List FnDetail) :=
  ids.mapM (treeGet st.fnTable)

/-- One per-range tie-break sort (src/src/lib.rs:208-213): stably sort the
sub-slice `[r.1, r.2)` by `(crate, display string)`. Rust's stable
`sort_by` is modelled by the stable insertion sort, which computes the same
list. -/
def sortRange (l : List FnDetail) (r : Nat × Nat) : List FnDetail :=
  l.take r.1 ++ ((l.drop r.1).take (r.2 - r.1)).insertionSort FdLe ++ l.drop r.2

/-- All per-range tie-break sorts, applied in recorded order. -/
def sortRanges (l : List FnDetail) (ranges : List (Nat × Nat)) : List FnDetail :=
  ranges.foldl sortRange l

/-- `search` after candidate generation (src/src/lib.rs:160-215): the
progressive-widening intersection, truncation, resolution and per-range
tie-break, as a function of the store and the fuzzy candidate columns. -/
def searchCore (st : Store) (cols : List (ColKind × List String)) : Option (List FnDetail) :=
  match searchIds st cols with
  | none => none
  | some (ids, ranges) =>
    match resolveIds st ids with
    | none => none
    | some pre => some (sortRanges pre ranges)

/-- Candidate-column generation (src/src/lib.rs:129-158): one ret column
for the return query, if any, then one param column per parameter query —
an empty but present parameter list is replaced by the single sentinel
query `<NOARGS>` — each column being the fuzzy service's ranked hits,
cut to `FUZZY_SEARCH_LIMIT` as `with_limit` demands. The fuzzy service
itself is the external collaborator, passed as the two oracle functions. -/
def buildColumns (fuzzyRet fuzzyParam : String → List String)
    (paramsSearch : Option (List String)) (retSearch : Option String) :
    List (ColKind × List String) :=
  (match retSearch with
   | some r => [(ColKind.retTree, (fuzzyRet r).take FUZZY_SEARCH_LIMIT)]
   | none => []) ++
  (match paramsSearch with
   | some ps =>
     (if ps.isEmpty then [NOARGS] else ps).map
       (fun p => (ColKind.paramTree, (fuzzyParam p).take FUZZY_SEARCH_LIMIT))
   | none => [])

/-- `search` (src/src/lib.rs:120-216), with the fuzzy service abstracted as
two oracles returning the ranked hit lists for the two indices. -/
def search (st : Store) (fuzzyRet fuzzyParam : String → List String)
    (paramsSearch : Option (List String)) (retSearch : Option String) : Option (List FnDetail) :=
  searchCore st (buildColumns fuzzyRet fuzzyParam paramsSearch retSearch)

/-- Modelled from the spec (§4.3 Step 2.1, describing src/src/lib.rs
170-176): one column's id set for depth `d` — the union, over the column's
first `min(d, len)` candidates, of the id sets obtained by Store lookup,
an absent key reading as the empty set. The refinement target the code's
column fold is compared against. -/
def specColumnIds (st : Store) (c : ColKind × List String) (d : Nat) : Finset Nat :=
  (c.2.take (min d c.2.length)).foldl (fun s ct => s ∪ lookupTy (colTreeOf st c.1) ct) ∅

/-- Modelled from the spec (§4.3 Step 2.2): the intersection of all
columns' id sets for a depth (empty with no columns). The refinement
target the code's per-depth loop is compared against. -/
def specDepthIds (st : Store) (cols : List (ColKind × List String)) (d : Nat) : Finset Nat :=
  match cols with
  | [] => ∅
  | c :: cs => cs.foldl (fun s c2 => s ∩ specColumnIds st c2 d) (specColumnIds st c d)

/-- The recorded ranges form a gapless chain from `s` to `e`: each range
starts where the previous one ended. -/
def RangesChain : Nat → List (Nat × Nat) → Nat → Prop
  | s, [], e => s = e
  | s, r :: rs, e => r.1 = s ∧ r.1 ≤ r.2 ∧ RangesChain r.2 rs e

/-- The sub-slices of a list cut out by a list of ranges. -/
def segmentsOf (l : List FnDetail) (ranges : List (Nat × Nat)) : List (List FnDetail) :=
  ranges.map (fun r => (l.drop r.1).take (r.2 - r.1))

instance : IsTotal FnDetail FdLe := by
  constructor
  intro a b
  unfold FdLe strLt
  by_cases hk : a.krate = b.krate
  · rw [if_pos hk, if_pos hk.symm]
    by_cases h : b.s.data < a.s.data
    · exact Or.inr (fun hc => absurd h (lt_asymm hc))
    · exact Or.inl h
  · rw [if_neg hk, if_neg (fun hc => hk hc.symm)]
    rcases lt_trichotomy a.krate.data b.krate.data with h | h | h
    · exact Or.inl h
    · exact absurd (String.ext h) hk
    · exact Or.inr h

instance : IsTrans FnDetail FdLe := by
  constructor
  intro a b c hab hbc
  unfold FdLe strLt at hab hbc ⊢
  by_cases h1 : a.krate = b.krate
  · rw [if_pos h1] at hab
    by_cases h2 : b.krate = c.krate
    · rw [if_pos h2] at hbc
      rw [if_pos (h1.trans h2)]
      intro hca
      rcases lt_trichotomy c.s.data b.s.data with h4 | h4 | h4
      · exact hbc h4
      · exact hab (show b.s.data < a.s.data by rw [← h4]; exact hca)
      · exact hab (lt_trans h4 hca)
    · rw [if_neg h2] at hbc
      rw [if_neg (fun hc : a.krate = c.krate => h2 (h1.symm.trans hc))]
      rw [h1]
      exact hbc
  · rw [if_neg h1] at hab
    by_cases h2 : b.krate = c.krate
    · rw [if_pos h2] at hbc
      rw [if_neg (fun hc : a.krate = c.krate => h1 (hc.trans h2.symm))]
      rw [← h2]
      exact hab
    · rw [if_neg h2] at hbc
      have h3 : ¬ a.krate = c.krate := by
        intro hc
        rw [hc] at hab
        exact absurd (lt_trans hab hbc) (lt_irrefl _)
      rw [if_neg h3]
      exact lt_trans hab hbc

/-- Concrete fixtures used to exercise the theorems on explicit inputs. -/
def fdOne : FnDetail := ⟨"demo", ["u8"], "bool", "fn demo::f1(u8) -> bool"⟩

def fdNil : FnDetail := ⟨"demo", [], "bool", "fn demo::f2() -> bool"⟩

def fdDup : FnDetail := ⟨"demo", ["u8", "u8"], "bool", "fn demo::g(u8, u8) -> bool"⟩

def stOne : Store := ⟨1, [("u8", {0})], [("bool", {0})], [(0, fdOne)], [("c", [0])]⟩

def stDup : Store := ⟨1, [("u8", {0})], [("bool", {0})], [(0, fdDup)], [("c", [0])]⟩

def stTwo : Store :=
  ⟨2, [("u8", {1}), ("<NOARGS>", {0})], [("bool", {0, 1})],
    [(0, fdNil), (1, fdOne)], [("demo", [0, 1])]⟩

theorem treeGet_treeInsert {K V : Type} [DecidableEq K] (t : List (K × V)) (k k' : K) (v : V) :
    treeGet (treeInsert t k v) k' = if k' = k then some v else treeGet t k' := by
  induction t with
  | nil =>
    by_cases h : k' = k <;> simp [treeInsert, treeGet, h]
  | cons hd tl ih =>
    obtain ⟨k₀, v₀⟩ := hd
    by_cases hk : k = k₀
    · subst hk
      by_cases h : k' = k <;> simp [treeInsert, treeGet, h]
    · by_cases h : k' = k₀
      · subst h
        simp [treeInsert, hk, treeGet, Ne.symm hk]
      · by_cases h2 : k' = k
        · subst h2
          simp only [treeInsert, hk, if_false, treeGet, h, if_true, if_pos rfl] at ih ⊢
          simpa using ih
        · simp [treeInsert, hk, treeGet, h, h2, ih]

theorem treeGet_treeRemove_ne {K V : Type} [DecidableEq K] (t : List (K × V)) (k k' : K)
    (h : k' ≠ k) : treeGet (treeRemove t k) k' = treeGet t k' := by
  induction t with
  | nil => simp [treeRemove]
  | cons hd tl ih =>
    obtain ⟨k₀, v₀⟩ := hd
    by_cases hk : k = k₀
    · subst hk
      simp [treeRemove, treeGet, h]
    · by_cases h2 : k' = k₀ <;> simp [treeRemove, hk, treeGet, h2, ih]

theorem treeGet_eq_none_of_not_mem_keys {K V : Type} [DecidableEq K] (t : List (K × V)) (k : K)
    (h : k ∉ treeKeys t) : treeGet t k = none := by
  induction t with
  | nil => simp [treeGet]
  | cons hd tl ih =>
    obtain ⟨k₀, v₀⟩ := hd
    simp only [treeKeys, List.map_cons, List.mem_cons] at h
    push_neg at h
    simp [treeGet, h.1, ih (by simpa [treeKeys] using h.2)]

theorem treeGet_treeRemove_self {K V : Type} [DecidableEq K] (t : List (K × V)) (k : K)
    (h : (treeKeys t).Nodup) : treeGet (treeRemove t k) k = none := by
  induction t with
  | nil => simp [treeRemove, treeGet]
  | cons hd tl ih =>
    obtain ⟨k₀, v₀⟩ := hd
    simp only [treeKeys, List.map_cons, List.nodup_cons] at h
    by_cases hk : k = k₀
    · subst hk
      simpa [treeRemove] using treeGet_eq_none_of_not_mem_keys tl k h.1
    · simp [treeRemove, hk, treeGet, ih h.2]

theorem treeKeys_treeInsert {K V : Type} [DecidableEq K] (t : List (K × V)) (k : K) (v : V) :
    (treeGet t k = none → treeKeys (treeInsert t k v) = treeKeys t ++ [k]) ∧
    (treeGet t k ≠ none → treeKeys (treeInsert t k v) = treeKeys t) := by
  induction t with
  | nil => simp [treeGet, treeInsert, treeKeys]
  | cons hd tl ih =>
    obtain ⟨k₀, v₀⟩ := hd
    by_cases hk : k = k₀
    · subst hk
      simp [treeGet, treeInsert, treeKeys]
    · simpa [treeGet, treeInsert, treeKeys, hk] using ih

theorem treeGet_ne_none_of_mem_keys {K V : Type} [DecidableEq K] {t : List (K × V)} {k : K}
    (h : k ∈ treeKeys t) : treeGet t k ≠ none := by
  induction t with
  | nil => simp [treeKeys] at h
  | cons hd tl ih =>
    obtain ⟨k₀, v₀⟩ := hd
    by_cases hk : k = k₀
    · simp [treeGet, hk]
    · simp only [treeKeys, List.map_cons, List.mem_cons] at h
      rcases h with h | h

      · exact absurd h hk
      · simp only [treeGet, hk, if_false]
        exact ih h

theorem nodup_treeKeys_treeInsert {K V : Type} [DecidableEq K] (t : List (K × V)) (k : K) (v : V)
    (h : (treeKeys t).Nodup) : (treeKeys (treeInsert t k v)).Nodup := by
  by_cases hg : treeGet t k = none
  · rw [(treeKeys_treeInsert t k v).1 hg]
    refine List.Nodup.append h (List.nodup_singleton k) ?_
    intro a ha hb
    simp only [List.mem_singleton] at hb
    subst hb
    exact treeGet_ne_none_of_mem_keys ha hg
  · rw [(treeKeys_treeInsert t k v).2 hg]
    exact h

theorem treeKeys_treeRemove_subset {K V : Type} [DecidableEq K] (t : List (K × V)) (k : K) :
    treeKeys (treeRemove t k) ⊆ treeKeys t := by
  induction t with
  | nil => simp [treeRemove]
  | cons hd tl ih =>
    obtain ⟨k₀, v₀⟩ := hd
    by_cases hk : k = k₀
    · subst hk
      simp only [treeRemove, if_pos rfl, treeKeys, List.map_cons]
      exact List.subset_cons_self _ _
    · simp only [treeRemove, hk, if_false, treeKeys, List.map_cons]
      exact List.cons_subset_cons k₀ ih

theorem nodup_treeKeys_treeRemove {K V : Type} [DecidableEq K] (t : List (K × V)) (k : K)
    (h : (treeKeys t).Nodup) : (treeKeys (treeRemove t k)).Nodup := by
  induction t with
  | nil => simpa [treeRemove] using h
  | cons hd tl ih =>
    obtain ⟨k₀, v₀⟩ := hd
    simp only [treeKeys, List.map_cons, List.nodup_cons] at h
    by_cases hk : k = k₀
    · subst hk
      simpa [treeRemove, treeKeys] using h.2
    · simp only [treeRemove, hk, if_false, treeKeys, List.map_cons, List.nodup_cons]
      exact ⟨fun hmem => h.1 (treeKeys_treeRemove_subset tl k hmem), ih h.2⟩

theorem treeInsert_of_get_none {K V : Type} [DecidableEq K] {t : List (K × V)} {k : K} (v : V)
    (h : treeGet t k = none) : treeInsert t k v = t ++ [(k, v)] := by
  induction t with
  | nil => simp [treeInsert]
  | cons hd tl ih =>
    obtain ⟨k₀, v₀⟩ := hd
    by_cases hk : k = k₀
    · simp [treeGet, hk] at h
    · simp only [treeGet, hk, if_false] at h
      simp [treeInsert, hk, ih h]

theorem lookupTy_treeInsert (t : List (String × Finset Nat)) (k k' : String) (s : Finset Nat) :
    lookupTy (treeInsert t k s) k' = if k' = k then s else lookupTy t k' := by
  unfold lookupTy
  rw [treeGet_treeInsert]
  by_cases h : k' = k <;> simp [h]

theorem mem_addedParamIds_bounds {c : Nat} {fds : List FnDetail} {k : String} {id : Nat}
    (h : id ∈ addedParamIds c fds k) : c ≤ id ∧ id < c + fds.length := by
  induction fds generalizing c with
  | nil => simp [addedParamIds] at h
  | cons fd rest ih =>
    simp only [addedParamIds, Finset.mem_union] at h
    simp only [List.length_cons]
    rcases h with h | h
    · by_cases hP : k ∈ effParams fd
      · rw [if_pos hP] at h
        simp only [Finset.mem_singleton] at h
        omega
      · rw [if_neg hP] at h
        simp at h
    · have := ih h
      omega

theorem mem_addedRetIds_bounds {c : Nat} {fds : List FnDetail} {k : String} {id : Nat}
    (h : id ∈ addedRetIds c fds k) : c ≤ id ∧ id < c + fds.length := by
  induction fds generalizing c with
  | nil => simp [addedRetIds] at h
  | cons fd rest ih =>
    simp only [addedRetIds, Finset.mem_union] at h
    simp only [List.length_cons]
    rcases h with h | h
    · by_cases hP : fd.ret = k
      · rw [if_pos hP] at h
        simp only [Finset.mem_singleton] at h
        omega
      · rw [if_neg hP] at h
        simp at h
    · have := ih h
      omega

theorem lookupTy_insertParamFold (ps : List String) (t : List (String × Finset Nat)) (id : Nat)
    (k : String) :
    lookupTy (ps.foldl (fun t2 p => insertParam t2 id p) t) k =
      if k ∈ ps then insert id (lookupTy t k) else lookupTy t k := by
  induction ps generalizing t with
  | nil => simp
  | cons p rest ih =>
    rw [List.foldl_cons, ih]
    have hstep : lookupTy (insertParam t id p) k =
        if k = p then insert id (lookupTy t k) else lookupTy t k := by
      unfold insertParam
      rw [lookupTy_treeInsert]
      by_cases hkp : k = p <;> simp [hkp, lookupTy]
    by_cases hkp : k = p
    · subst hkp
      by_cases hmem : k ∈ rest <;> simp [hstep, hmem, Finset.insert_idem]
    · by_cases hmem : k ∈ rest <;> simp [hstep, hmem, hkp]

/-- Full characterization of the per-detail loop of `add_crate`: starting
with id `c`, with every id already present in a ret-type set below `c` and
no fn-table key at or above `c`, the loop always succeeds, assigns the
consecutive ids `c, c+1, …`, appends the new fn-table entries in order, and
grows the param/ret id sets by exactly the recorded contributions. -/
theorem addFold_char (fds : List FnDetail) :
    ∀ (p r : List (String × Finset Nat)) (f : List (Nat × FnDetail)) (c : Nat) (ids0 : List Nat),
    (∀ k id, id ∈ lookupTy r k → id < c) →
    (∀ id, c ≤ id → treeGet f id = none) →
    ∃ a, List.foldlM addDetail ⟨p, r, f, c, ids0⟩ fds = some a ∧
      a.fnId = c + fds.length ∧
      a.fnIds = ids0 ++ List.range' c fds.length ∧
      a.fnTable = f ++ (List.range' c fds.length).zip fds ∧
      (∀ k, lookupTy a.param k = lookupTy p k ∪ addedParamIds c fds k) ∧
      (∀ k, lookupTy a.ret k = lookupTy r k ∪ addedRetIds c fds k) ∧
      (∀ k id, id ∈ lookupTy a.ret k → id < c + fds.length) := by
  induction fds with
  | nil =>
    intro p r f c ids0 hr _
    exact ⟨⟨p, r, f, c, ids0⟩, by simp, by simp, by simp, by simp,
      by simp [addedParamIds], by simp [addedRetIds], by simpa using hr⟩
  | cons fd rest ih =>
    intro p r f c ids0 hr hf
    have hcnot : c ∉ (treeGet r fd.ret).getD ∅ := fun hmem =>
      lt_irrefl c (hr fd.ret c (by simpa [lookupTy] using hmem))
    have hstep : addDetail ⟨p, r, f, c, ids0⟩ fd =
        some ⟨(effParams fd).foldl (fun t2 p2 => insertParam t2 c p2) p,
              treeInsert r fd.ret (insert c (lookupTy r fd.ret)),
              treeInsert f c fd, c + 1, ids0 ++ [c]⟩ := by
      simp only [addDetail]
      rw [if_neg hcnot]
      rfl
    have hr1 : ∀ k id, id ∈ lookupTy (treeInsert r fd.ret (insert c (lookupTy r fd.ret))) k →
        id < c + 1 := by
      intro k id hmem
      rw [lookupTy_treeInsert] at hmem
      by_cases hk : k = fd.ret
      · rw [if_pos hk] at hmem
        rcases Finset.mem_insert.mp hmem with h | h
        · omega
        · have := hr fd.ret id h
          omega
      · rw [if_neg hk] at hmem
        have := hr k id hmem
        omega
    have hf1 : ∀ id, c + 1 ≤ id → treeGet (treeInsert f c fd) id = none := by
      intro id hid
      rw [treeGet_treeInsert, if_neg (by omega)]
      exact hf id (by omega)
    obtain ⟨a, ha, h1, h2, h3, h4, h5, h6⟩ :=
      ih ((effParams fd).foldl (fun t2 p2 => insertParam t2 c p2) p)
        (treeInsert r fd.ret (insert c (lookupTy r fd.ret)))
        (treeInsert f c fd) (c + 1) (ids0 ++ [c]) hr1 hf1
    refine ⟨a, ?_, ?_, ?_, ?_, ?_, ?_, ?_⟩
    · rw [List.foldlM_cons, hstep]
      simpa using ha
    · simp only [List.length_cons]
      omega
    · rw [h2]
      simp [List.length_cons, List.range'_succ]
    · rw [h3, treeInsert_of_get_none fd (hf c (le_refl c))]
      simp [List.length_cons, List.range'_succ]
    · intro k
      rw [h4, lookupTy_insertParamFold]
      by_cases hk : k ∈ effParams fd
      · rw [if_pos hk]
        simp only [addedParamIds, if_pos hk]
        ext x
        simp only [Finset.mem_insert, Finset.mem_union, Finset.mem_singleton]
        tauto
      · rw [if_neg hk]
        simp [addedParamIds, hk]
    · intro k
      rw [h5, lookupTy_treeInsert]
      by_cases hk : k = fd.ret
      · subst hk
        rw [if_pos rfl]
        have hadd : addedRetIds c (fd :: rest) fd.ret = {c} ∪ addedRetIds (c + 1) rest fd.ret := by
          simp [addedRetIds]
        rw [hadd]
        ext x
        simp only [Finset.mem_insert, Finset.mem_union, Finset.mem_singleton]
        tauto
      · rw [if_neg hk]
        simp only [addedRetIds]
        rw [if_neg (fun hc => hk hc.symm)]
        simp
    · intro k id hm
      have := h6 k id hm
      simp only [List.length_cons]
      omega

theorem mem_pairsParamIds {pairs : List (Nat × FnDetail)} {k : String} {x : Nat}
    (h : x ∈ pairsParamIds pairs k) : x ∈ pairs.map Prod.fst := by
  induction pairs with
  | nil => simp [pairsParamIds] at h
  | cons pr rest ih =>
    simp only [pairsParamIds, Finset.mem_union] at h
    rcases h with h | h
    · by_cases hP : k ∈ effParams pr.2
      · rw [if_pos hP] at h
        simp only [Finset.mem_singleton] at h
        simp [h]
      · rw [if_neg hP] at h
        simp at h
    · simp [ih h]

theorem mem_pairsRetIds {pairs : List (Nat × FnDetail)} {k : String} {x : Nat}
    (h : x ∈ pairsRetIds pairs k) : x ∈ pairs.map Prod.fst := by
  induction pairs with
  | nil => simp [pairsRetIds] at h
  | cons pr rest ih =>
    simp only [pairsRetIds, Finset.mem_union] at h
    rcases h with h | h
    · by_cases hP : pr.2.ret = k
      · rw [if_pos hP] at h
        simp only [Finset.mem_singleton] at h
        simp [h]
      · rw [if_neg hP] at h
        simp at h
    · simp [ih h]

theorem lookupTy_removeParamFold (ps : List String) (t : List (String × Finset Nat)) (id : Nat)
    (k : String) :
    lookupTy (ps.foldl (fun t2 p => removeParam t2 id p) t) k =
      if k ∈ ps then Finset.erase (lookupTy t k) id else lookupTy t k := by
  induction ps generalizing t with
  | nil => simp
  | cons p rest ih =>
    rw [List.foldl_cons, ih]
    have hstep : lookupTy (removeParam t id p) k =
        if k = p then Finset.erase (lookupTy t k) id else lookupTy t k := by
      unfold removeParam
      rw [lookupTy_treeInsert]
      by_cases hkp : k = p <;> simp [hkp, lookupTy]
    by_cases hkp : k = p
    · subst hkp
      by_cases hmem : k ∈ rest <;> simp [hstep, hmem, Finset.erase_idem]
    · by_cases hmem : k ∈ rest <;> simp [hstep, hmem, hkp]

/-- Characterization of one successful `purgeDetail` step. -/
theorem purgeDetail_char {p r p2 r2 : List (String × Finset Nat)} {id : Nat} {fd : FnDetail}
    (h : purgeDetail (p, r) (id, fd) = some (p2, r2)) :
    (∀ k, lookupTy p2 k =
      if k ∈ effParams fd then Finset.erase (lookupTy p k) id else lookupTy p k) ∧
    (∀ k, lookupTy r2 k =
      if k = fd.ret then Finset.erase (lookupTy r k) id else lookupTy r k) ∧
    id ∈ lookupTy r fd.ret := by
  unfold purgeDetail at h
  by_cases hmem : id ∈ (treeGet r fd.ret).getD ∅
  · rw [if_pos hmem] at h
    simp only [Option.some_inj, Prod.mk.injEq] at h
    obtain ⟨hp, hr⟩ := h
    refine ⟨?_, ?_, by simpa [lookupTy] using hmem⟩
    · intro k
      rw [← hp, lookupTy_removeParamFold]
    · intro k
      rw [← hr, lookupTy_treeInsert]
      by_cases hk : k = fd.ret <;> simp [hk, lookupTy]
  · rw [if_neg hmem] at h
    exact absurd h (by simp)

/-- Inverse characterization of a successful purge fold: the final id set of
every type key is the initial one minus the recorded removals. -/
theorem purgeFold_char (pairs : List (Nat × FnDetail)) :
    ∀ (p r p2 r2 : List (String × Finset Nat)),
    List.foldlM purgeDetail (p, r) pairs = some (p2, r2) →
    (∀ k, lookupTy p2 k = lookupTy p k \ pairsParamIds pairs k) ∧
    (∀ k, lookupTy r2 k = lookupTy r k \ pairsRetIds pairs k) := by
  induction pairs with
  | nil =>
    intro p r p2 r2 h
    simp only [List.foldlM_nil, Option.pure_def, Option.some_inj] at h
    injection h with hp hr
    constructor <;> intro k <;> simp [← hp, ← hr, pairsParamIds, pairsRetIds]
  | cons pr rest ih =>
    obtain ⟨id, fd⟩ := pr
    intro p r p2 r2 h
    rw [List.foldlM_cons] at h
    obtain ⟨x, h1, h2⟩ := Option.bind_eq_some.mp h
    obtain ⟨p1, r1⟩ := x
    obtain ⟨hp1, hr1, -⟩ := purgeDetail_char h1
    obtain ⟨hp2, hr2⟩ := ih p1 r1 p2 r2 h2
    constructor
    · intro k
      rw [hp2 k, hp1 k]
      by_cases hk : k ∈ effParams fd
      · rw [if_pos hk]
        simp only [pairsParamIds, if_pos hk]
        ext x
        simp only [Finset.mem_sdiff, Finset.mem_erase, Finset.mem_union, Finset.mem_singleton]
        tauto
      · rw [if_neg hk]
        simp only [pairsParamIds, if_neg hk]
        ext x
        simp only [Finset.mem_sdiff, Finset.mem_union, Finset.not_mem_empty]
        tauto
    · intro k
      rw [hr2 k, hr1 k]
      by_cases hk : fd.ret = k
      · rw [if_pos hk.symm]
        simp only [pairsRetIds, if_pos hk]
        ext x
        simp only [Finset.mem_sdiff, Finset.mem_erase, Finset.mem_union, Finset.mem_singleton]
        tauto
      · rw [if_neg (fun hc => hk hc.symm)]
        simp only [pairsRetIds, if_neg hk]
        ext x
        simp only [Finset.mem_sdiff, Finset.mem_union, Finset.not_mem_empty]
        tauto

/-- Forward run of the purge fold: with pairwise-distinct ids each present
in its own ret-type set, every `assert!(didremove)` passes and the fold
succeeds. -/
theorem purgeFold_run (pairs : List (Nat × FnDetail)) :
    ∀ (p r : List (String × Finset Nat)),
    (pairs.map Prod.fst).Nodup →
    (∀ pr ∈ pairs, pr.1 ∈ lookupTy r pr.2.ret) →
    ∃ p2 r2, List.foldlM purgeDetail (p, r) pairs = some (p2, r2) := by
  induction pairs with
  | nil =>
    intro p r _ _
    exact ⟨p, r, by simp⟩
  | cons pr rest ih =>
    obtain ⟨id, fd⟩ := pr
    intro p r hnd hmem
    have hid : id ∈ (treeGet r fd.ret).getD ∅ := by
      simpa [lookupTy] using hmem (id, fd) (List.mem_cons_self _ _)
    have hstep : purgeDetail (p, r) (id, fd) =
        some ((effParams fd).foldl (fun t2 p2 => removeParam t2 id p2) p,
          treeInsert r fd.ret (Finset.erase ((treeGet r fd.ret).getD ∅) id)) := by
      unfold purgeDetail
      rw [if_pos hid]
    simp only [List.map_cons, List.nodup_cons] at hnd
    have hmem2 : ∀ pr2 ∈ rest,
        pr2.1 ∈ lookupTy (treeInsert r fd.ret (Finset.erase ((treeGet r fd.ret).getD ∅) id))
          pr2.2.ret := by
      intro pr2 hpr2
      have hne : pr2.1 ≠ id := fun hc => hnd.1 (hc ▸ List.mem_map_of_mem Prod.fst hpr2)
      have hold := hmem pr2 (List.mem_cons_of_mem _ hpr2)
      rw [lookupTy_treeInsert]
      by_cases hk : pr2.2.ret = fd.ret
      · rw [if_pos hk]
        exact Finset.mem_erase.mpr ⟨hne, by simpa [lookupTy, hk] using hold⟩
      · rw [if_neg hk]
        exact hold
    obtain ⟨p2, r2, hrun⟩ := ih _ _ hnd.2 hmem2
    exact ⟨p2, r2, by rw [List.foldlM_cons, hstep]; simpa using hrun⟩

/-- Forward run of the fn-table extraction pass of `purge_crate`: with
distinct ids each bound in the table, the pass succeeds, extracts exactly
the paired details in order, and deletes exactly those keys. -/
theorem removeFns_run (ids : List Nat) :
    ∀ (fds : List FnDetail) (f : List (Nat × FnDetail)),
    ids.length = fds.length → ids.Nodup → (treeKeys f).Nodup →
    (∀ pr ∈ ids.zip fds, treeGet f pr.1 = some pr.2) →
    ∃ f2, removeFns f ids = some (f2, ids.zip fds) ∧
      (∀ k, treeGet f2 k = if k ∈ ids then none else treeGet f k) ∧
      (treeKeys f2).Nodup := by
  induction ids with
  | nil =>
    intro fds f _ _ hkeys _
    exact ⟨f, by simp [removeFns], by simp, hkeys⟩
  | cons id rest ih =>
    intro fds f hlen hnd hkeys hget
    match fds with
    | [] => simp at hlen
    | fd :: fds2 =>
      simp only [List.length_cons] at hlen
      simp only [List.nodup_cons] at hnd
      have hhead : treeGet f id = some fd :=
        hget (id, fd) (by simp [List.zip_cons_cons])
      have hget2 : ∀ pr ∈ rest.zip fds2, treeGet (treeRemove f id) pr.1 = some pr.2 := by
        intro pr hpr
        have hne : pr.1 ≠ id := fun hc => hnd.1 (hc ▸ (List.of_mem_zip hpr).1)
        rw [treeGet_treeRemove_ne _ _ _ hne]
        exact hget pr (by simp [List.zip_cons_cons, hpr])
      obtain ⟨f2, hrun, hchar, hnd2⟩ := ih fds2 (treeRemove f id) (by omega) hnd.2
        (nodup_treeKeys_treeRemove f id hkeys) hget2
      refine ⟨f2, ?_, ?_, hnd2⟩
      · simp only [removeFns, hhead, hrun, List.zip_cons_cons]
        rfl
      · intro k
        rw [hchar k]
        by_cases hk : k = id
        · subst hk
          simp only [List.mem_cons, true_or, if_pos]
          by_cases hk2 : k ∈ rest
          · rw [if_pos hk2]
          · rw [if_neg hk2]
            exact treeGet_treeRemove_self f k hkeys
        · by_cases hk2 : k ∈ rest
          · simp [hk2, hk]
          · simp only [List.mem_cons, hk, hk2, or_self, if_false]
            exact treeGet_treeRemove_ne f id k hk

/-- Inversion of a successful fn-table extraction pass: the recorded ids
were pairwise distinct and all bound, the extracted pairs are the ids
zipped with their stored details, and exactly those keys are gone. -/
theorem removeFns_inv (ids : List Nat) :
    ∀ (f f2 : List (Nat × FnDetail)) (pairs : List (Nat × FnDetail)),
    (treeKeys f).Nodup →
    removeFns f ids = some (f2, pairs) →
    ids.Nodup ∧ pairs.map Prod.fst = ids ∧
      (∀ pr ∈ pairs, treeGet f pr.1 = some pr.2) ∧
      (∀ k, treeGet f2 k = if k ∈ ids then none else treeGet f k) ∧
      (treeKeys f2).Nodup := by
  induction ids with
  | nil =>
    intro f f2 pairs hkeys h
    simp only [removeFns, Option.some_inj] at h
    injection h with h1 h2
    subst h1
    subst h2
    simp [hkeys]
  | cons id rest ih =>
    intro f f2 pairs hkeys h
    simp only [removeFns] at h
    match hhead : treeGet f id with
    | none => rw [hhead] at h; simp at h
    | some fd =>
      rw [hhead] at h
      match hrec : removeFns (treeRemove f id) rest with
      | none => rw [hrec] at h; simp at h
      | some r2 =>
        rw [hrec] at h
        obtain ⟨f3, pairs3⟩ := r2
        have hpair : ((f3, (id, fd) :: pairs3) :
            List (Nat × FnDetail) × List (Nat × FnDetail)) = (f2, pairs) := by
          simpa using h
        injection hpair with ha hb
        subst ha
        subst hb
        obtain ⟨hnd, hmap, hget, hchar, hnd2⟩ :=
          ih (treeRemove f id) f3 pairs3 (nodup_treeKeys_treeRemove f id hkeys) hrec
        have hidnot : id ∉ rest := by
          intro hmem
          rw [← hmap] at hmem
          obtain ⟨pr, hpr, hfst⟩ := List.mem_map.mp hmem
          have hx := hget pr hpr
          rw [hfst, treeGet_treeRemove_self f id hkeys] at hx
          exact Option.noConfusion hx
        refine ⟨List.nodup_cons.mpr ⟨hidnot, hnd⟩, by simp [hmap], ?_, ?_, hnd2⟩
        · intro pr hpr
          rcases List.mem_cons.mp hpr with hpr | hpr
          · subst hpr
            exact hhead
          · have hne : pr.1 ≠ id := by
              intro hc
              exact hidnot (hc ▸ (hmap ▸ List.mem_map_of_mem Prod.fst hpr))
            rw [← treeGet_treeRemove_ne f id pr.1 hne]
            exact hget pr hpr
        · intro k
          rw [hchar k]
          by_cases hk : k = id
          · subst hk
            simp only [List.mem_cons, true_or, if_pos]
            rw [if_neg hidnot, treeGet_treeRemove_self f k hkeys]
          · by_cases hk2 : k ∈ rest
            · simp [hk2, hk]
            · simp only [List.mem_cons, hk, hk2, or_self, if_false]
              exact treeGet_treeRemove_ne f id k hk

theorem treeGet_append_of_none {K V : Type} [DecidableEq K] {t1 : List (K × V)}
    (t2 : List (K × V)) {k : K} (h : treeGet t1 k = none) :
    treeGet (t1 ++ t2) k = treeGet t2 k := by
  induction t1 with
  | nil => simp
  | cons hd tl ih =>
    obtain ⟨k₀, v₀⟩ := hd
    by_cases hk : k = k₀
    · simp [treeGet, hk] at h
    · simp only [treeGet, hk, if_false] at h
      simpa [treeGet, hk] using ih h

theorem treeGet_append_of_some {K V : Type} [DecidableEq K] {t1 : List (K × V)}
    (t2 : List (K × V)) {k : K} {v : V} (h : treeGet t1 k = some v) :
    treeGet (t1 ++ t2) k = some v := by
  induction t1 with
  | nil => simp [treeGet] at h
  | cons hd tl ih =>
    obtain ⟨k₀, v₀⟩ := hd
    by_cases hk : k = k₀
    · subst hk
      have h2 : v₀ = v := by simpa [treeGet] using h
      simp [treeGet, h2]
    · simp only [treeGet, hk, if_false] at h
      simpa [treeGet, hk] using ih h

theorem treeGet_eq_some_iff_mem {K V : Type} [DecidableEq K] {t : List (K × V)}
    (hnd : (treeKeys t).Nodup) (k : K) (v : V) :
    treeGet t k = some v ↔ (k, v) ∈ t := by
  induction t with
  | nil => simp [treeGet]
  | cons hd tl ih =>
    obtain ⟨k₀, v₀⟩ := hd
    simp only [treeKeys, List.map_cons, List.nodup_cons] at hnd
    by_cases hk : k = k₀
    · subst hk
      constructor
      · intro h
        have h2 : v₀ = v := by simpa [treeGet] using h
        subst h2
        exact List.mem_cons_self _ _
      · intro h
        rcases List.mem_cons.mp h with h | h
        · injection h with ha hb
          simp [treeGet, hb]
        · exact absurd (List.mem_map_of_mem Prod.fst h) hnd.1
    · constructor
      · intro h
        simp only [treeGet, hk, if_false] at h
        exact List.mem_cons_of_mem _ ((ih hnd.2).mp h)
      · intro h
        rcases List.mem_cons.mp h with h | h
        · injection h with ha hb
          exact absurd ha hk
        · simp only [treeGet, hk, if_false]
          exact (ih hnd.2).mpr h

theorem mem_pairsRetIds_iff {pairs : List (Nat × FnDetail)} {k : String} {x : Nat} :
    x ∈ pairsRetIds pairs k ↔ ∃ pr ∈ pairs, pr.1 = x ∧ pr.2.ret = k := by
  induction pairs with
  | nil => simp [pairsRetIds]
  | cons pr rest ih =>
    simp only [pairsRetIds, Finset.mem_union, ih, List.mem_cons]
    constructor
    · rintro (h | ⟨pr2, hmem, h1, h2⟩)
      · by_cases hP : pr.2.ret = k
        · rw [if_pos hP] at h
          simp only [Finset.mem_singleton] at h
          exact ⟨pr, Or.inl rfl, h.symm, hP⟩
        · rw [if_neg hP] at h
          simp at h
      · exact ⟨pr2, Or.inr hmem, h1, h2⟩
    · rintro ⟨pr2, hmem | hmem, h1, h2⟩
      · subst hmem
        exact Or.inl (by rw [if_pos h2]; simp [h1.symm])
      · exact Or.inr ⟨pr2, hmem, h1, h2⟩

theorem mem_pairsParamIds_iff {pairs : List (Nat × FnDetail)} {k : String} {x : Nat} :
    x ∈ pairsParamIds pairs k ↔ ∃ pr ∈ pairs, pr.1 = x ∧ k ∈ effParams pr.2 := by
  induction pairs with
  | nil => simp [pairsParamIds]
  | cons pr rest ih =>
    simp only [pairsParamIds, Finset.mem_union, ih, List.mem_cons]
    constructor
    · rintro (h | ⟨pr2, hmem, h1, h2⟩)
      · by_cases hP : k ∈ effParams pr.2
        · rw [if_pos hP] at h
          simp only [Finset.mem_singleton] at h
          exact ⟨pr, Or.inl rfl, h.symm, hP⟩
        · rw [if_neg hP] at h
          simp at h
      · exact ⟨pr2, Or.inr hmem, h1, h2⟩
    · rintro ⟨pr2, hmem | hmem, h1, h2⟩
      · subst hmem
        exact Or.inl (by rw [if_pos h2]; simp [h1.symm])
      · exact Or.inr ⟨pr2, hmem, h1, h2⟩

theorem addedRetIds_eq_pairs (fds : List FnDetail) :
    ∀ (c : Nat) (k : String),
    addedRetIds c fds k = pairsRetIds ((List.range' c fds.length).zip fds) k := by
  induction fds with
  | nil => intro c k; simp [addedRetIds, pairsRetIds]
  | cons fd rest ih =>
    intro c k
    have h1 : (List.range' c (fd :: rest).length).zip (fd :: rest) =
        (c, fd) :: (List.range' (c + 1) rest.length).zip rest := by
      simp [List.range'_succ]
    rw [h1]
    simp only [addedRetIds, pairsRetIds, ih (c + 1) k]

theorem addedParamIds_eq_pairs (fds : List FnDetail) :
    ∀ (c : Nat) (k : String),
    addedParamIds c fds k = pairsParamIds ((List.range' c fds.length).zip fds) k := by
  induction fds with
  | nil => intro c k; simp [addedParamIds, pairsParamIds]
  | cons fd rest ih =>
    intro c k
    have h1 : (List.range' c (fd :: rest).length).zip (fd :: rest) =
        (c, fd) :: (List.range' (c + 1) rest.length).zip rest := by
      simp [List.range'_succ]
    rw [h1]
    simp only [addedParamIds, pairsParamIds, ih (c + 1) k]

theorem treeKeys_zip_range' (c : Nat) (fds : List FnDetail) :
    treeKeys ((List.range' c fds.length).zip fds) = List.range' c fds.length := by
  unfold treeKeys
  exact List.map_fst_zip _ _ (by simp)

theorem storeInv_empty : StoreInv emptyStore := by
  constructor <;> simp [emptyStore, treeKeys, treeGet, lookupTy]

theorem storeInv_retDom {st : Store} (hinv : StoreInv st) :
    ∀ k id, id ∈ lookupTy st.ret k → id < st.counter := by
  intro k id hmem
  obtain ⟨fd, hfd⟩ := hinv.retCover k id hmem
  exact hinv.counterDom id fd hfd

theorem storeInv_fnDom {st : Store} (hinv : StoreInv st) :
    ∀ id, st.counter ≤ id → treeGet st.fnTable id = none := by
  intro id hid
  match hfd : treeGet st.fnTable id with
  | none => rfl
  | some fd => exact absurd (hinv.counterDom id fd hfd) (by omega)

/-- Top-level characterization of `add_crate` on an invariant-satisfying
store: it always succeeds, assigns the consecutive fresh ids
`counter, …, counter+n-1`, records them under the crate name, appends the
new fn-table entries in order, advances the counter by the batch size, and
grows the type id sets by exactly the recorded contributions. -/
theorem add_crate_char {st : Store} (name : String) (fds : List FnDetail)
    (hr : ∀ k id, id ∈ lookupTy st.ret k → id < st.counter)
    (hf : ∀ id, st.counter ≤ id → treeGet st.fnTable id = none) :
    ∃ st2, add_crate st name fds = some (st2, st.counter + fds.length) ∧
      st2.counter = st.counter + fds.length ∧
      st2.fnTable = st.fnTable ++ (List.range' st.counter fds.length).zip fds ∧
      st2.crate = treeInsert st.crate name (List.range' st.counter fds.length) ∧
      (∀ k, lookupTy st2.param k = lookupTy st.param k ∪ addedParamIds st.counter fds k) ∧
      (∀ k, lookupTy st2.ret k = lookupTy st.ret k ∪ addedRetIds st.counter fds k) := by
  obtain ⟨a, ha, h1, h2, h3, h4, h5, -⟩ :=
    addFold_char fds st.param st.ret st.fnTable st.counter [] hr hf
  refine ⟨⟨a.fnId, a.param, a.ret, a.fnTable, treeInsert st.crate name a.fnIds⟩, ?_, by simp [h1],
    by simpa using h3, by simp [h2], fun k => by simpa using h4 k, fun k => by simpa using h5 k⟩
  unfold add_crate
  rw [ha]
  simp [h1]

/-- `add_crate` preserves the store invariant. -/
theorem add_crate_inv {st : Store} {name : String} {fds : List FnDetail} {st2 : Store} {k2 : Nat}
    (hinv : StoreInv st) (h : add_crate st name fds = some (st2, k2)) : StoreInv st2 := by
  obtain ⟨st3, hrun, hc, hft, hcr, hp, hr⟩ :=
    add_crate_char name fds (storeInv_retDom hinv) (storeInv_fnDom hinv)
  rw [hrun] at h
  have hpair := Option.some_inj.mp h
  injection hpair with hst hk
  subst hst
  have zipNodup : (treeKeys ((List.range' st.counter fds.length).zip fds)).Nodup := by
    rw [treeKeys_zip_range']
    exact List.nodup_range' _ _
  have memRange : ∀ {id : Nat}, id ∈ List.range' st.counter fds.length ↔
      st.counter ≤ id ∧ id < st.counter + fds.length := fun {id} => List.mem_range'_1
  have fget : ∀ id fd, treeGet st3.fnTable id = some fd ↔
      (treeGet st.fnTable id = some fd ∨ (id, fd) ∈ (List.range' st.counter fds.length).zip fds) := by
    intro id fd
    rw [hft]
    constructor
    · intro hg
      match hg0 : treeGet st.fnTable id with
      | some v =>
        rw [treeGet_append_of_some _ hg0] at hg
        exact Or.inl hg
      | none =>
        rw [treeGet_append_of_none _ hg0] at hg
        exact Or.inr ((treeGet_eq_some_iff_mem zipNodup id fd).mp hg)
    · rintro (hg | hg)
      · exact treeGet_append_of_some _ hg
      · have hc2 : st.counter ≤ id := (memRange.mp (List.of_mem_zip hg).1).1
        rw [treeGet_append_of_none _ (storeInv_fnDom hinv id hc2)]
        exact (treeGet_eq_some_iff_mem zipNodup id fd).mpr hg
  constructor
  · rw [hft]
    unfold treeKeys
    rw [List.map_append]
    refine List.Nodup.append hinv.keysF zipNodup ?_
    intro a ha hb
    have hb3 : a ∈ treeKeys ((List.range' st.counter fds.length).zip fds) := hb
    rw [treeKeys_zip_range'] at hb3
    have hb2 : st.counter ≤ a := (memRange.mp hb3).1
    match hga : treeGet st.fnTable a with
    | none => exact treeGet_ne_none_of_mem_keys ha hga
    | some fd => exact absurd (hinv.counterDom a fd hga) (by omega)
  · rw [hcr]
    exact nodup_treeKeys_treeInsert _ _ _ hinv.keysC
  · intro id fd hfd
    rw [hc]
    rcases (fget id fd).mp hfd with hg | hg
    · have := hinv.counterDom id fd hg
      omega
    · exact (memRange.mp (List.of_mem_zip hg).1).2
  · intro id fd hfd k
    rw [hr k, Finset.mem_union]
    rcases (fget id fd).mp hfd with hg | hg
    · have hlt := hinv.counterDom id fd hg
      constructor
      · rintro (hm | hm)
        · exact (hinv.retMem id fd hg k).mp hm
        · have := (mem_addedRetIds_bounds hm).1
          omega
      · intro hm
        exact Or.inl ((hinv.retMem id fd hg k).mpr hm)
    · have hge : st.counter ≤ id := (memRange.mp (List.of_mem_zip hg).1).1
      constructor
      · rintro (hm | hm)
        · have := storeInv_retDom hinv k id hm
          omega
        · rw [addedRetIds_eq_pairs] at hm
          obtain ⟨pr, hpr, h1, h2⟩ := mem_pairsRetIds_iff.mp hm
          have hg2 : treeGet ((List.range' st.counter fds.length).zip fds) id = some pr.2 := by
            rw [treeGet_eq_some_iff_mem zipNodup]
            rw [← h1]
            exact hpr
          have hg3 : treeGet ((List.range' st.counter fds.length).zip fds) id = some fd :=
            (treeGet_eq_some_iff_mem zipNodup id fd).mpr hg
          rw [hg2] at hg3
          injection hg3 with hg4
          rw [← h2, hg4]
      · intro hm
        refine Or.inr ?_
        rw [addedRetIds_eq_pairs]
        exact mem_pairsRetIds_iff.mpr ⟨(id, fd), hg, rfl, hm.symm⟩
  · intro id fd hfd k
    rw [hp k, Finset.mem_union]
    rcases (fget id fd).mp hfd with hg | hg
    · have hlt := hinv.counterDom id fd hg
      constructor
      · rintro (hm | hm)
        · exact (hinv.paramMem id fd hg k).mp hm
        · have := (mem_addedParamIds_bounds hm).1
          omega
      · intro hm
        exact Or.inl ((hinv.paramMem id fd hg k).mpr hm)
    · have hge : st.counter ≤ id := (memRange.mp (List.of_mem_zip hg).1).1
      constructor
      · rintro (hm | hm)
        · obtain ⟨fd2, hfd2⟩ := hinv.paramCover k id hm
          have := hinv.counterDom id fd2 hfd2
          omega
        · rw [addedParamIds_eq_pairs] at hm
          obtain ⟨pr, hpr, h1, h2⟩ := mem_pairsParamIds_iff.mp hm
          have hg2 : treeGet ((List.range' st.counter fds.length).zip fds) id = some pr.2 := by
            rw [treeGet_eq_some_iff_mem zipNodup]
            rw [← h1]
            exact hpr
          have hg3 : treeGet ((List.range' st.counter fds.length).zip fds) id = some fd :=
            (treeGet_eq_some_iff_mem zipNodup id fd).mpr hg
          rw [hg2] at hg3
          injection hg3 with hg4
          rw [← hg4]
          exact h2
      · intro hm
        refine Or.inr ?_
        rw [addedParamIds_eq_pairs]
        exact mem_pairsParamIds_iff.mpr ⟨(id, fd), hg, rfl, hm⟩
  · intro k id hm
    rw [hr k, Finset.mem_union] at hm
    rcases hm with hm | hm
    · obtain ⟨fd, hfd⟩ := hinv.retCover k id hm
      exact ⟨fd, (fget id fd).mpr (Or.inl hfd)⟩
    · rw [addedRetIds_eq_pairs] at hm
      obtain ⟨pr, hpr, h1, -⟩ := mem_pairsRetIds_iff.mp hm
      exact ⟨pr.2, (fget id pr.2).mpr (Or.inr (by rw [← h1]; exact hpr))⟩
  · intro k id hm
    rw [hp k, Finset.mem_union] at hm
    rcases hm with hm | hm
    · obtain ⟨fd, hfd⟩ := hinv.paramCover k id hm
      exact ⟨fd, (fget id fd).mpr (Or.inl hfd)⟩
    · rw [addedParamIds_eq_pairs] at hm
      obtain ⟨pr, hpr, h1, -⟩ := mem_pairsParamIds_iff.mp hm
      exact ⟨pr.2, (fget id pr.2).mpr (Or.inr (by rw [← h1]; exact hpr))⟩
  · intro c ids hg id hid
    rw [hcr, treeGet_treeInsert] at hg
    by_cases hcn : c = name
    · rw [if_pos hcn] at hg
      injection hg with hg
      subst hg
      have : id ∈ treeKeys ((List.range' st.counter fds.length).zip fds) := by
        rwa [treeKeys_zip_range']
      match hg2 : treeGet ((List.range' st.counter fds.length).zip fds) id with
      | none => exact absurd hg2 (treeGet_ne_none_of_mem_keys this)
      | some fd =>
        exact ⟨fd, (fget id fd).mpr (Or.inr ((treeGet_eq_some_iff_mem zipNodup id fd).mp hg2))⟩
    · rw [if_neg hcn] at hg
      obtain ⟨fd, hfd⟩ := hinv.crateCover c ids hg id hid
      exact ⟨fd, (fget id fd).mpr (Or.inl hfd)⟩
  · intro c₁ c₂ ids₁ ids₂ hg₁ hg₂ hne id hid₁ hid₂
    rw [hcr, treeGet_treeInsert] at hg₁ hg₂
    by_cases h1 : c₁ = name
    · rw [if_pos h1] at hg₁
      rw [if_neg (fun hcn2 => hne (h1.trans hcn2.symm))] at hg₂
      injection hg₁ with hg₁
      subst hg₁
      have hge : st.counter ≤ id := (memRange.mp hid₁).1
      obtain ⟨fd, hfd⟩ := hinv.crateCover c₂ ids₂ hg₂ id hid₂
      have := hinv.counterDom id fd hfd
      omega
    · rw [if_neg h1] at hg₁
      by_cases h2 : c₂ = name
      · rw [if_pos h2] at hg₂
        injection hg₂ with hg₂
        subst hg₂
        have hge : st.counter ≤ id := (memRange.mp hid₂).1
        obtain ⟨fd, hfd⟩ := hinv.crateCover c₁ ids₁ hg₁ id hid₁
        have := hinv.counterDom id fd hfd
        omega
      · rw [if_neg h2] at hg₂
        exact hinv.crateDisj c₁ c₂ ids₁ ids₂ hg₁ hg₂ hne id hid₁ hid₂

/-- `purge_crate` preserves the store invariant. -/
theorem purge_crate_inv {st : Store} {name : String} {st2 : Store}
    (hinv : StoreInv st) (h : purge_crate st name = some st2) : StoreInv st2 := by
  unfold purge_crate at h
  match hcg : treeGet st.crate name with
  | none =>
    rw [hcg] at h
    injection h with h
    subst h
    exact hinv
  | some fnIds =>
    rw [hcg] at h
    obtain ⟨⟨f2, pairs⟩, hrf, h⟩ := Option.bind_eq_some.mp h
    obtain ⟨⟨p2, r2⟩, hpf, h⟩ := Option.bind_eq_some.mp h
    injection h with h
    subst h
    obtain ⟨hnd, hmap, hget, hfchar, hnd2⟩ := removeFns_inv fnIds st.fnTable f2 pairs hinv.keysF hrf
    obtain ⟨hpchar, hrchar⟩ := purgeFold_char pairs st.param st.ret p2 r2 hpf
    have notInIds : ∀ id fd, treeGet f2 id = some fd →
        id ∉ fnIds ∧ treeGet st.fnTable id = some fd := by
      intro id fd hfd
      rw [hfchar id] at hfd
      by_cases hmem : id ∈ fnIds
      · rw [if_pos hmem] at hfd
        exact absurd hfd (by simp)
      · rw [if_neg hmem] at hfd
        exact ⟨hmem, hfd⟩
    have notRet : ∀ {id : Nat} {k : String}, id ∉ fnIds → id ∉ pairsRetIds pairs k := by
      intro id k hmem hin
      obtain ⟨pr, hpr, h1, -⟩ := mem_pairsRetIds_iff.mp hin
      exact hmem (hmap ▸ (h1 ▸ List.mem_map_of_mem Prod.fst hpr))
    have notParam : ∀ {id : Nat} {k : String}, id ∉ fnIds → id ∉ pairsParamIds pairs k := by
      intro id k hmem hin
      obtain ⟨pr, hpr, h1, -⟩ := mem_pairsParamIds_iff.mp hin
      exact hmem (hmap ▸ (h1 ▸ List.mem_map_of_mem Prod.fst hpr))
    have idInPairs : ∀ {id : Nat}, id ∈ fnIds → ∃ pr ∈ pairs, pr.1 = id := by
      intro id hmem
      rw [← hmap] at hmem
      obtain ⟨pr, hpr, h1⟩ := List.mem_map.mp hmem
      exact ⟨pr, hpr, h1⟩
    constructor
    · exact hnd2
    · exact nodup_treeKeys_treeRemove _ _ hinv.keysC
    · intro id fd hfd
      exact hinv.counterDom id fd (notInIds id fd hfd).2
    · intro id fd hfd k
      obtain ⟨hnot, hold⟩ := notInIds id fd hfd
      rw [hrchar k, Finset.mem_sdiff]
      constructor
      · rintro ⟨hm, -⟩
        exact (hinv.retMem id fd hold k).mp hm
      · intro hm
        exact ⟨(hinv.retMem id fd hold k).mpr hm, notRet hnot⟩
    · intro id fd hfd k
      obtain ⟨hnot, hold⟩ := notInIds id fd hfd
      rw [hpchar k, Finset.mem_sdiff]
      constructor
      · rintro ⟨hm, -⟩
        exact (hinv.paramMem id fd hold k).mp hm
      · intro hm
        exact ⟨(hinv.paramMem id fd hold k).mpr hm, notParam hnot⟩
    · intro k id hm
      rw [hrchar k, Finset.mem_sdiff] at hm
      obtain ⟨hm, hnotp⟩ := hm
      obtain ⟨fd, hfd⟩ := hinv.retCover k id hm
      have hnot : id ∉ fnIds := by
        intro hmem
        obtain ⟨pr, hpr, h1⟩ := idInPairs hmem
        have hg2 := hget pr hpr
        rw [h1, hfd] at hg2
        injection hg2 with hg2
        refine hnotp (mem_pairsRetIds_iff.mpr ⟨pr, hpr, h1, ?_⟩)
        rw [← hg2]
        exact ((hinv.retMem id fd hfd k).mp hm).symm
      refine ⟨fd, ?_⟩
      rw [hfchar id, if_neg hnot]
      exact hfd
    · intro k id hm
      rw [hpchar k, Finset.mem_sdiff] at hm
      obtain ⟨hm, hnotp⟩ := hm
      obtain ⟨fd, hfd⟩ := hinv.paramCover k id hm
      have hnot : id ∉ fnIds := by
        intro hmem
        obtain ⟨pr, hpr, h1⟩ := idInPairs hmem
        have hg2 := hget pr hpr
        rw [h1, hfd] at hg2
        injection hg2 with hg2
        refine hnotp (mem_pairsParamIds_iff.mpr ⟨pr, hpr, h1, ?_⟩)
        rw [← hg2]
        exact (hinv.paramMem id fd hfd k).mp hm
      refine ⟨fd, ?_⟩
      rw [hfchar id, if_neg hnot]
      exact hfd
    · intro c ids hg id hid
      by_cases hcn : c = name
      · subst hcn
        rw [treeGet_treeRemove_self _ _ hinv.keysC] at hg
        exact absurd hg (by simp)
      · rw [treeGet_treeRemove_ne _ _ _ hcn] at hg
        obtain ⟨fd, hfd⟩ := hinv.crateCover c ids hg id hid
        have hnot : id ∉ fnIds := hinv.crateDisj c name ids fnIds hg hcg hcn id hid
        refine ⟨fd, ?_⟩
        rw [hfchar id, if_neg hnot]
        exact hfd
    · intro c₁ c₂ ids₁ ids₂ hg₁ hg₂ hne id hid₁
      by_cases h1 : c₁ = name
      · subst h1
        rw [treeGet_treeRemove_self _ _ hinv.keysC] at hg₁
        exact absurd hg₁ (by simp)
      · by_cases h2 : c₂ = name
        · subst h2
          rw [treeGet_treeRemove_self _ _ hinv.keysC] at hg₂
          exact absurd hg₂ (by simp)
        · rw [treeGet_treeRemove_ne _ _ _ h1] at hg₁
          rw [treeGet_treeRemove_ne _ _ _ h2] at hg₂
          exact hinv.crateDisj c₁ c₂ ids₁ ids₂ hg₁ hg₂ hne id hid₁

/-- Every reachable store satisfies the consistency invariant. -/
theorem reachable_inv {st : Store} (h : Reachable st) : StoreInv st := by
  induction h with
  | empty => exact storeInv_empty
  | add _ hadd ih => exact add_crate_inv ih hadd
  | purge _ hpurge ih => exact purge_crate_inv ih hpurge

theorem treeRemove_append_head {K V : Type} [DecidableEq K] {f : List (K × V)} {k : K}
    (v : V) (rest : List (K × V)) (h : treeGet f k = none) :
    treeRemove (f ++ (k, v) :: rest) k = f ++ rest := by
  induction f with
  | nil => simp [treeRemove]
  | cons hd tl ih =>
    obtain ⟨k₀, v₀⟩ := hd
    by_cases hk : k = k₀
    · simp [treeGet, hk] at h
    · simp only [treeGet, hk, if_false] at h
      simp [treeRemove, Ne.symm hk, hk, ih h]

/-- Removing the keys of a freshly appended block in order peels the block
off exactly, leaving the original list. -/
theorem removeFns_append (pairs : List (Nat × FnDetail)) :
    ∀ (f : List (Nat × FnDetail)),
    (∀ pr ∈ pairs, treeGet f pr.1 = none) →
    removeFns (f ++ pairs) (pairs.map Prod.fst) = some (f, pairs) := by
  induction pairs with
  | nil =>
    intro f _
    simp [removeFns]
  | cons pr rest ih =>
    obtain ⟨id, fd⟩ := pr
    intro f hnone
    have hh : treeGet f id = none := hnone (id, fd) (List.mem_cons_self _ _)
    have hg : treeGet (f ++ (id, fd) :: rest) id = some fd := by
      rw [treeGet_append_of_none _ hh]
      simp [treeGet]
    have hrm : treeRemove (f ++ (id, fd) :: rest) id = f ++ rest :=
      treeRemove_append_head fd rest hh
    simp only [List.map_cons, removeFns, hg, hrm,
      ih f (fun pr2 hpr2 => hnone pr2 (List.mem_cons_of_mem _ hpr2))]
    rfl

theorem storeInv_paramDom {st : Store} (hinv : StoreInv st) :
    ∀ k id, id ∈ lookupTy st.param k → id < st.counter := by
  intro k id hmem
  obtain ⟨fd, hfd⟩ := hinv.paramCover k id hmem
  exact hinv.counterDom id fd hfd

/-- The roundtrip core of the apply/purge inverse property: on an
invariant-satisfying store whose crate tree does not yet bind `name`,
`add_crate` succeeds, and the immediately following `purge_crate` succeeds
and restores the fn table and the crate tree exactly, restores every
param/ret id set (reading an absent key as the empty set), and leaves the
counter advanced by the batch size. -/
theorem add_then_purge {st : Store} (name : String) (fds : List FnDetail)
    (hinv : StoreInv st) (hname : treeGet st.crate name = none) :
    ∃ st2 st3, add_crate st name fds = some (st2, st.counter + fds.length) ∧
      purge_crate st2 name = some st3 ∧
      st3.fnTable = st.fnTable ∧
      st3.crate = st.crate ∧
      (∀ k, lookupTy st3.param k = lookupTy st.param k) ∧
      (∀ k, lookupTy st3.ret k = lookupTy st.ret k) ∧
      st3.counter = st.counter + fds.length := by
  obtain ⟨st2, hrun, hc, hft, hcr, hp, hr⟩ :=
    add_crate_char name fds (storeInv_retDom hinv) (storeInv_fnDom hinv)
  have zipNodup : (treeKeys ((List.range' st.counter fds.length).zip fds)).Nodup := by
    rw [treeKeys_zip_range']
    exact List.nodup_range' _ _
  have memRange : ∀ {id : Nat}, id ∈ List.range' st.counter fds.length ↔
      st.counter ≤ id ∧ id < st.counter + fds.length := fun {id} => List.mem_range'_1
  have hcg : treeGet st2.crate name = some (List.range' st.counter fds.length) := by
    rw [hcr, treeGet_treeInsert, if_pos rfl]
  have hmapfst : ((List.range' st.counter fds.length).zip fds).map Prod.fst =
      List.range' st.counter fds.length := treeKeys_zip_range' st.counter fds
  have hrfrun : removeFns st2.fnTable (List.range' st.counter fds.length) =
      some (st.fnTable, (List.range' st.counter fds.length).zip fds) := by
    have h0 := removeFns_append ((List.range' st.counter fds.length).zip fds) st.fnTable
      (fun pr hpr => storeInv_fnDom hinv pr.1 (memRange.mp (List.of_mem_zip hpr).1).1)
    rw [hmapfst] at h0
    rw [hft]
    exact h0
  have hretmem : ∀ pr ∈ (List.range' st.counter fds.length).zip fds,
      pr.1 ∈ lookupTy st2.ret pr.2.ret := by
    intro pr hpr
    rw [hr, Finset.mem_union, addedRetIds_eq_pairs]
    exact Or.inr (mem_pairsRetIds_iff.mpr ⟨pr, hpr, rfl, rfl⟩)
  obtain ⟨p2, r2, hpfrun⟩ := purgeFold_run ((List.range' st.counter fds.length).zip fds)
    st2.param st2.ret (by rw [hmapfst]; exact List.nodup_range' _ _) hretmem
  obtain ⟨hpchar, hrchar⟩ := purgeFold_char _ _ _ _ _ hpfrun
  refine ⟨st2, ⟨st2.counter, p2, r2, st.fnTable, treeRemove st2.crate name⟩,
    hrun, ?_, rfl, ?_, ?_, ?_, hc⟩
  · unfold purge_crate
    simp only [hcg, hrfrun, hpfrun, Option.bind_eq_bind, Option.some_bind]
  · rw [hcr, treeInsert_of_get_none _ hname]
    have := treeRemove_append_head (List.range' st.counter fds.length) ([] : List (String × List Nat)) hname
    simpa using this
  · intro k
    rw [hpchar k, hp k, addedParamIds_eq_pairs]
    ext x
    simp only [Finset.mem_sdiff, Finset.mem_union]
    constructor
    · rintro ⟨hm | hm, hnot⟩
      · exact hm
      · exact absurd hm hnot
    · intro hm
      refine ⟨Or.inl hm, fun hcontra => ?_⟩
      have h1 : x < st.counter := storeInv_paramDom hinv k x hm
      rw [← addedParamIds_eq_pairs] at hcontra
      have h2 : st.counter ≤ x := (mem_addedParamIds_bounds hcontra).1
      omega
  · intro k
    rw [hrchar k, hr k, addedRetIds_eq_pairs]
    ext x
    simp only [Finset.mem_sdiff, Finset.mem_union]
    constructor
    · rintro ⟨hm | hm, hnot⟩
      · exact hm
      · exact absurd hm hnot
    · intro hm
      refine ⟨Or.inl hm, fun hcontra => ?_⟩
      have h1 : x < st.counter := storeInv_retDom hinv k x hm
      rw [← addedRetIds_eq_pairs] at hcontra
      have h2 : st.counter ≤ x := (mem_addedRetIds_bounds hcontra).1
      omega

theorem mem_sortedIds {s : Finset Nat} {x : Nat} : x ∈ sortedIds s ↔ x ∈ s := by
  unfold sortedIds
  rw [List.mem_filter]
  constructor
  · rintro ⟨-, h⟩
    simpa using h
  · intro h
    refine ⟨List.mem_range.mpr ?_, by simpa using h⟩
    have : x ≤ s.sup id := Finset.le_sup (f := id) h
    omega

theorem nodup_sortedIds (s : Finset Nat) : (sortedIds s).Nodup :=
  (List.nodup_range _).filter _

theorem toFinset_sortedIds (s : Finset Nat) : (sortedIds s).toFinset = s := by
  ext x
  rw [List.mem_toFinset]
  exact mem_sortedIds

/-- Inversion of a successful add fold, with no assumption on the starting
state: the id advances by the batch size, the assigned ids are the
consecutive block starting at the initial id, and the type id sets grow by
exactly the recorded contributions. -/
theorem addFold_inv (fds : List FnDetail) :
    ∀ (st0 : AddState) (a : AddState),
    List.foldlM addDetail st0 fds = some a →
    a.fnId = st0.fnId + fds.length ∧
    a.fnIds = st0.fnIds ++ List.range' st0.fnId fds.length ∧
    (∀ k, lookupTy a.param k = lookupTy st0.param k ∪ addedParamIds st0.fnId fds k) ∧
    (∀ k, lookupTy a.ret k = lookupTy st0.ret k ∪ addedRetIds st0.fnId fds k) := by
  induction fds with
  | nil =>
    intro st0 a h
    simp only [List.foldlM_nil, Option.pure_def, Option.some_inj] at h
    subst h
    exact ⟨by simp, by simp, fun k => by simp [addedParamIds], fun k => by simp [addedRetIds]⟩
  | cons fd rest ih =>
    intro st0 a h
    rw [List.foldlM_cons] at h
    obtain ⟨a1, h1, h2⟩ := Option.bind_eq_some.mp h
    have hstep : a1 = ⟨(effParams fd).foldl (fun t2 p2 => insertParam t2 st0.fnId p2) st0.param,
        treeInsert st0.ret fd.ret (insert st0.fnId ((treeGet st0.ret fd.ret).getD ∅)),
        treeInsert st0.fnTable st0.fnId fd, st0.fnId + 1, st0.fnIds ++ [st0.fnId]⟩ := by
      unfold addDetail at h1
      by_cases hmem : st0.fnId ∈ (treeGet st0.ret fd.ret).getD ∅
      · rw [if_pos hmem] at h1
        exact absurd h1 (by simp)
      · rw [if_neg hmem] at h1
        exact (Option.some_inj.mp h1).symm
    obtain ⟨g1, g2, g3, g4⟩ := ih a1 a h2
    subst hstep
    refine ⟨?_, ?_, ?_, ?_⟩
    · rw [g1]
      simp only [List.length_cons]
      omega
    · rw [g2]
      simp [List.range'_succ, List.length_cons]
    · intro k
      rw [g3 k, lookupTy_insertParamFold]
      by_cases hk : k ∈ effParams fd
      · rw [if_pos hk]
        simp only [addedParamIds, if_pos hk]
        ext x
        simp only [Finset.mem_insert, Finset.mem_union, Finset.mem_singleton]
        tauto
      · rw [if_neg hk]
        simp [addedParamIds, hk]
    · intro k
      rw [g4 k, lookupTy_treeInsert]
      by_cases hk : k = fd.ret
      · subst hk
        rw [if_pos rfl]
        have hadd : addedRetIds st0.fnId (fd :: rest) fd.ret =
            {st0.fnId} ∪ addedRetIds (st0.fnId + 1) rest fd.ret := by
          simp [addedRetIds]
        rw [hadd]
        ext x
        simp only [Finset.mem_insert, Finset.mem_union, Finset.mem_singleton, lookupTy]
        tauto
      · rw [if_neg hk]
        simp only [addedRetIds]
        rw [if_neg (fun hc => hk hc.symm)]
        simp [lookupTy]

theorem mem_addedParamIds_of_get {fds : List FnDetail} {i : Nat} {fd : FnDetail} {k : String} :
    ∀ c : Nat, fds[i]? = some fd → k ∈ effParams fd → (c + i) ∈ addedParamIds c fds k := by
  induction fds generalizing i with
  | nil => intro c h; simp at h
  | cons fd2 rest ih =>
    intro c hget hk
    match i with
    | 0 =>
      simp only [List.getElem?_cons_zero, Option.some_inj] at hget
      subst hget
      simp only [addedParamIds, Finset.mem_union, if_pos hk]
      exact Or.inl (by simp)
    | i2 + 1 =>
      simp only [List.getElem?_cons_succ] at hget
      have := ih (c + 1) hget hk
      simp only [addedParamIds, Finset.mem_union]
      refine Or.inr ?_
      have harith : c + 1 + i2 = c + (i2 + 1) := by omega
      rwa [harith] at this

theorem colFold_spec (T : List (String × Finset Nat)) (l : List String) :
    ∀ (acc s : Finset Nat),
    l.foldlM (fun s2 ct => (treeGet T ct).map (fun ms => s2 ∪ ms)) acc = some s →
    s = l.foldl (fun s2 ct => s2 ∪ lookupTy T ct) acc := by
  induction l with
  | nil =>
    intro acc s h
    simp only [List.foldlM_nil, Option.pure_def, Option.some_inj] at h
    simp [← h]
  | cons ct l ih =>
    intro acc s h
    rw [List.foldlM_cons] at h
    obtain ⟨acc1, h1, h2⟩ := Option.bind_eq_some.mp h
    match hg : treeGet T ct with
    | none => rw [hg] at h1; exact absurd h1 (by simp)
    | some v =>
      rw [hg] at h1
      simp only [Option.map_some', Option.some_inj] at h1
      subst h1
      rw [List.foldl_cons]
      have hl : lookupTy T ct = v := by simp [lookupTy, hg]
      rw [hl]
      exact ih (acc ∪ v) s h2

theorem colLookupUnion_spec {st : Store} {c : ColKind × List String} {d : Nat} {s : Finset Nat}
    (h : colLookupUnion st c d = some s) : s = specColumnIds st c d :=
  colFold_spec (colTreeOf st c.1) (c.2.take (min d c.2.length)) ∅ s h

theorem interFold_some_spec {st : Store} {d : Nat} (cols : List (ColKind × List String)) :
    ∀ (a : Finset Nat) (x : Option (Finset Nat)),
    cols.foldlM (interStep st d) (some a) = some x →
    x = some (cols.foldl (fun s c2 => s ∩ specColumnIds st c2 d) a) := by
  induction cols with
  | nil =>
    intro a x h
    simp only [List.foldlM_nil, Option.pure_def, Option.some_inj] at h
    simp [← h]
  | cons c cs ih =>
    intro a x h
    rw [List.foldlM_cons] at h
    obtain ⟨acc1, h1, h2⟩ := Option.bind_eq_some.mp h
    unfold interStep at h1
    match hg : colLookupUnion st c d with
    | none => rw [hg] at h1; exact absurd h1 (by simp)
    | some cids =>
      rw [hg] at h1
      simp only [Option.map_some', Option.some_inj] at h1
      subst h1
      rw [List.foldl_cons, ← colLookupUnion_spec hg]
      exact ih (a ∩ cids) x h2

theorem interIds_spec {st : Store} {cols : List (ColKind × List String)} {d : Nat}
    {s : Finset Nat} (h : interIds st cols d = some (some s)) :
    s = specDepthIds st cols d := by
  unfold interIds at h
  match cols, h with
  | [], h => simp at h
  | c :: cs, h =>
    rw [List.foldlM_cons] at h
    obtain ⟨acc1, h1, h2⟩ := Option.bind_eq_some.mp h
    unfold interStep at h1
    match hg : colLookupUnion st c d with
    | none => rw [hg] at h1; exact absurd h1 (by simp)
    | some cids =>
      rw [hg] at h1
      simp only [Option.map_some', Option.some_inj] at h1
      subst h1
      have hx := interFold_some_spec cs cids (some s) h2
      simp only [Option.some_inj] at hx
      rw [hx, specDepthIds, ← colLookupUnion_spec hg]

theorem colFold_isSome (T : List (String × Finset Nat)) (l : List String)
    (hall : ∀ ct ∈ l, (treeGet T ct).isSome) :
    ∀ acc : Finset Nat,
    (l.foldlM (fun s2 ct => (treeGet T ct).map (fun ms => s2 ∪ ms)) acc).isSome := by
  induction l with
  | nil => intro acc; simp
  | cons ct l ih =>
    intro acc
    rw [List.foldlM_cons]
    match hg : treeGet T ct with
    | none => exact absurd (hg ▸ hall ct (List.mem_cons_self _ _)) (by simp)
    | some v =>
      simp only [Option.map_some', Option.some_bind]
      exact ih (fun ct2 h2 => hall ct2 (List.mem_cons_of_mem _ h2)) (acc ∪ v)

theorem colLookupUnion_isSome {st : Store} {c : ColKind × List String} {d : Nat}
    (hall : ∀ ct ∈ c.2, (treeGet (colTreeOf st c.1) ct).isSome) :
    (colLookupUnion st c d).isSome :=
  colFold_isSome _ _ (fun ct hct => hall ct (List.take_subset _ _ hct)) ∅

theorem interFold_someSome {st : Store} {d : Nat} (cols : List (ColKind × List String))
    (hall : ∀ c ∈ cols, (colLookupUnion st c d).isSome) :
    ∀ a : Finset Nat, ∃ s, cols.foldlM (interStep st d) (some a) = some (some s) := by
  induction cols with
  | nil => intro a; exact ⟨a, by simp⟩
  | cons c cs ih =>
    intro a
    rw [List.foldlM_cons]
    match hg : colLookupUnion st c d with
    | none => exact absurd (hg ▸ hall c (List.mem_cons_self _ _)) (by simp)
    | some cids =>
      unfold interStep
      rw [hg]
      simp only [Option.map_some', Option.some_bind]
      exact ih (fun c2 h2 => hall c2 (List.mem_cons_of_mem _ h2)) (a ∩ cids)

theorem interIds_someSome {st : Store} {d : Nat} {cols : List (ColKind × List String)}
    (hne : cols ≠ []) (hall : ∀ c ∈ cols, (colLookupUnion st c d).isSome) :
    ∃ s, interIds st cols d = some (some s) := by
  unfold interIds
  match cols, hne with
  | c :: cs, _ =>
    rw [List.foldlM_cons]
    match hg : colLookupUnion st c d with
    | none => exact absurd (hg ▸ hall c (List.mem_cons_self _ _)) (by simp)
    | some cids =>
      unfold interStep
      rw [hg]
      simp only [Option.map_some', Option.some_bind]
      exact interFold_someSome cs (fun c2 h2 => hall c2 (List.mem_cons_of_mem _ h2)) cids

theorem interIds_none_of_col {st : Store} {cols : List (ColKind × List String)} {d : Nat}
    {c : ColKind × List String} (hmem : c ∈ cols) (hcol : colLookupUnion st c d = none) :
    interIds st cols d = none := by
  unfold interIds
  generalize (none : Option (Finset Nat)) = acc
  induction cols generalizing acc with
  | nil => simp at hmem
  | cons c0 cs ih =>
    rw [List.foldlM_cons]
    rcases List.mem_cons.mp hmem with hmem2 | hmem2
    · subst hmem2
      unfold interStep
      rw [hcol]
      simp
    · unfold interStep
      match hg : colLookupUnion st c0 d with
      | none => simp
      | some cids =>
        simp only [Option.map_some', Option.some_bind]
        exact ih hmem2 _

theorem colFold_none_of_mem (T : List (String × Finset Nat)) {ct : String}
    (hget : treeGet T ct = none) :
    ∀ l : List String, ct ∈ l → ∀ acc : Finset Nat,
    l.foldlM (fun s2 ct2 => (treeGet T ct2).map (fun ms => s2 ∪ ms)) acc = none := by
  intro l
  induction l with
  | nil => intro hmem acc; simp at hmem
  | cons a l ih =>
    intro hmem acc
    rw [List.foldlM_cons]
    rcases List.mem_cons.mp hmem with h | h
    · subst h
      rw [hget]
      simp
    · match hg : treeGet T a with
      | none => simp
      | some v =>
        simp only [Option.map_some', Option.some_bind]
        exact ih h (acc ∪ v)

/-- A single absent candidate anywhere in the examined `min(d, len)` prefix
of a column makes the whole column lookup the fatal `none`. -/
theorem colLookupUnion_none_of_mem {st : Store} {c : ColKind × List String} {d : Nat}
    {ct : String} (hmem : ct ∈ c.2.take (min d c.2.length))
    (hget : treeGet (colTreeOf st c.1) ct = none) :
    colLookupUnion st c d = none :=
  colFold_none_of_mem _ hget _ hmem ∅

/-- A successful `depthStep` appends a block of fresh ids and the matching
range. -/
theorem depthStep_shape {st : Store} {cols : List (ColKind × List String)} {d : Nat}
    {acc acc2 : SearchAcc} (h : depthStep st cols d acc = some acc2) :
    ∃ n, acc2.fnIds.length = acc.fnIds.length + n ∧
      acc2.ranges = acc.ranges ++ [(acc.fnIds.length, acc.fnIds.length + n)] := by
  unfold depthStep at h
  match hi : interIds st cols d, h with
  | some (some inter), h =>
    have h3 : (⟨acc.fnIds ++ sortedIds (inter \ acc.fnIdsSet),
        acc.fnIdsSet ∪ (sortedIds (inter \ acc.fnIdsSet)).toFinset,
        acc.ranges ++ [(acc.fnIds.length,
          acc.fnIds.length + (sortedIds (inter \ acc.fnIdsSet)).length)]⟩ : SearchAcc) = acc2 :=
      Option.some_inj.mp h
    subst h3
    exact ⟨(sortedIds (inter \ acc.fnIdsSet)).length, by simp, rfl⟩

theorem rangesChain_le {rs : List (Nat × Nat)} : ∀ {s e : Nat}, RangesChain s rs e → s ≤ e := by
  induction rs with
  | nil =>
    intro s e h
    exact le_of_eq h
  | cons r rs ih =>
    intro s e h
    obtain ⟨h1, h2, h3⟩ := h
    have := ih h3
    omega

theorem rangesChain_mem {rs : List (Nat × Nat)} :
    ∀ {s e : Nat}, RangesChain s rs e → ∀ r ∈ rs, s ≤ r.1 ∧ r.1 ≤ r.2 ∧ r.2 ≤ e := by
  induction rs with
  | nil => intro s e _ r hr; simp at hr
  | cons r0 rs ih =>
    intro s e h r hr
    obtain ⟨h1, h2, h3⟩ := h
    rcases List.mem_cons.mp hr with hr | hr
    · subst hr
      exact ⟨le_of_eq h1.symm, h2, rangesChain_le h3⟩
    · obtain ⟨g1, g2, g3⟩ := ih h3 r hr
      omega

theorem rangesChain_snoc {rs : List (Nat × Nat)} :
    ∀ {s m e : Nat}, RangesChain s rs m → m ≤ e → RangesChain s (rs ++ [(m, e)]) e := by
  induction rs with
  | nil =>
    intro s m e h hle
    subst h
    exact ⟨rfl, hle, rfl⟩
  | cons r rs ih =>
    intro s m e h hle
    obtain ⟨h1, h2, h3⟩ := h
    exact ⟨h1, h2, ih h3 hle⟩

theorem rangesChain_snoc_inv {rs : List (Nat × Nat)} {r : Nat × Nat} :
    ∀ {s e : Nat}, RangesChain s (rs ++ [r]) e →
    RangesChain s rs r.1 ∧ r.1 ≤ r.2 ∧ r.2 = e := by
  induction rs with
  | nil =>
    intro s e h
    obtain ⟨h1, h2, h3⟩ := h
    exact ⟨h1.symm, h2, h3⟩
  | cons r0 rs ih =>
    intro s e h
    obtain ⟨h1, h2, h3⟩ := h
    obtain ⟨g1, g2, g3⟩ := ih h3
    exact ⟨⟨h1, h2, g1⟩, g2, g3⟩

theorem rangesChain_last {rs : List (Nat × Nat)} :
    ∀ {s e : Nat}, RangesChain s rs e → s = e ∨ ∃ r ∈ rs, r.2 = e := by
  induction rs with
  | nil => intro s e h; exact Or.inl h
  | cons r rs ih =>
    intro s e h
    obtain ⟨h1, h2, h3⟩ := h
    rcases ih h3 with h4 | ⟨r2, hmem, h4⟩
    · exact Or.inr ⟨r, List.mem_cons_self _ _, h4⟩
    · exact Or.inr ⟨r2, List.mem_cons_of_mem _ hmem, h4⟩

/-- Loop invariant of `runDepths`: entered below the cap with a gapless
range chain, it exits with a gapless chain in which every range but the
last ends strictly below the cap. -/
theorem runDepths_inv {st : Store} {cols : List (ColKind × List String)} :
    ∀ (ds : List Nat) (acc acc2 : SearchAcc),
    runDepths st cols ds acc = some acc2 →
    RangesChain 0 acc.ranges acc.fnIds.length →
    acc.fnIds.length < MAX_RESULTS →
    RangesChain 0 acc2.ranges acc2.fnIds.length ∧
    (∀ r ∈ acc2.ranges.dropLast, r.2 < MAX_RESULTS) := by
  intro ds
  induction ds with
  | nil =>
    intro acc acc2 h hch hlt
    simp only [runDepths, Option.some_inj] at h
    subst h
    refine ⟨hch, fun r hr => ?_⟩
    have := rangesChain_mem hch r (List.dropLast_subset _ hr)
    omega
  | cons d ds ih =>
    intro acc acc2 h hch hlt
    unfold runDepths at h
    match hs : depthStep st cols d acc, h with
    | some acc1, h =>
      obtain ⟨n, gl, gr⟩ := depthStep_shape hs
      have hch1 : RangesChain 0 acc1.ranges acc1.fnIds.length := by
        rw [gr, gl]
        exact rangesChain_snoc hch (by omega)
      have h2 : (if MAX_RESULTS ≤ acc1.fnIds.length then some acc1
          else runDepths st cols ds acc1) = some acc2 := h
      by_cases hstop : MAX_RESULTS ≤ acc1.fnIds.length
      · rw [if_pos hstop] at h2
        have h3 : acc1 = acc2 := Option.some_inj.mp h2
        subst h3
        refine ⟨hch1, fun r hr => ?_⟩
        rw [gr, List.dropLast_concat] at hr
        have := rangesChain_mem hch r hr
        omega
      · rw [if_neg hstop] at h2
        exact ih acc1 acc2 h2 hch1 (by omega)

theorem runDepths_cons {st : Store} {cols : List (ColKind × List String)} (d : Nat)
    (ds : List Nat) (acc : SearchAcc) :
    runDepths st cols (d :: ds) acc =
      match depthStep st cols d acc with
      | none => none
      | some acc2 => if MAX_RESULTS ≤ acc2.fnIds.length then some acc2
        else runDepths st cols ds acc2 := rfl

/-- If the loop runs an initial segment of depths without aborting and ends
it strictly below the cap, the remaining depths continue from the reached
state: the loop neither broke nor stopped inside the segment. -/
theorem runDepths_append_below {st : Store} {cols : List (ColKind × List String)} :
    ∀ (ds1 ds2 : List Nat) (acc acc0 : SearchAcc),
    runDepths st cols ds1 acc = some acc0 → acc0.fnIds.length < MAX_RESULTS →
    runDepths st cols (ds1 ++ ds2) acc = runDepths st cols ds2 acc0 := by
  intro ds1
  induction ds1 with
  | nil =>
    intro ds2 acc acc0 h hlt
    have h2 : acc = acc0 := by simpa [runDepths] using h
    subst h2
    rfl
  | cons d ds1 ih =>
    intro ds2 acc acc0 h hlt
    unfold runDepths at h
    match hs : depthStep st cols d acc, h with
    | some acc1, h =>
      have h2 : (if MAX_RESULTS ≤ acc1.fnIds.length then some acc1
          else runDepths st cols ds1 acc1) = some acc0 := h
      by_cases hstop : MAX_RESULTS ≤ acc1.fnIds.length
      · rw [if_pos hstop] at h2
        have h3 : acc1 = acc0 := Option.some_inj.mp h2
        subst h3
        exact absurd hlt (not_lt.mpr hstop)
      · rw [if_neg hstop] at h2
        rw [List.cons_append, runDepths_cons, hs]
        show (if MAX_RESULTS ≤ acc1.fnIds.length then some acc1
            else runDepths st cols (ds1 ++ ds2) acc1) = runDepths st cols ds2 acc0
        rw [if_neg hstop]
        exact ih ds2 acc1 acc0 h2 hlt

theorem mapM_treeGet_length {st : Store} : ∀ {ids : List Nat} {l : List FnDetail},
    ids.mapM (treeGet st.fnTable) = some l → l.length = ids.length := by
  intro ids
  induction ids with
  | nil =>
    intro l h
    simp only [List.mapM_nil, Option.pure_def, Option.some_inj] at h
    simp [← h]
  | cons id ids ih =>
    intro l h
    rw [List.mapM_cons] at h
    obtain ⟨fd, h1, h2⟩ := Option.bind_eq_some.mp h
    obtain ⟨l2, h3, h4⟩ := Option.bind_eq_some.mp h2
    have h5 : fd :: l2 = l := by simpa using h4
    subst h5
    simp [ih h3]

/-- The truncated ranges of a successful `searchIds` run form a gapless
chain over the truncated id list, whose length respects the cap, and every
range but the last ends strictly below the cap. -/
theorem searchIds_chain {st : Store} {cols : List (ColKind × List String)}
    {ids : List Nat} {ranges : List (Nat × Nat)}
    (h : searchIds st cols = some (ids, ranges)) :
    RangesChain 0 ranges ids.length ∧ ids.length ≤ MAX_RESULTS ∧
    (∀ r ∈ ranges.dropLast, r.2 < MAX_RESULTS) := by
  unfold searchIds at h
  match hr : runDepths st cols (searchDepths cols) ⟨[], ∅, []⟩, h with
  | some acc, h =>
    obtain ⟨hch, hdrop⟩ := runDepths_inv (searchDepths cols) ⟨[], ∅, []⟩ acc hr rfl
      (by simp [MAX_RESULTS])
    have h2 : (acc.fnIds.take (min acc.fnIds.length MAX_RESULTS),
        fixLast acc.ranges (min acc.fnIds.length MAX_RESULTS)) = (ids, ranges) :=
      Option.some_inj.mp h
    injection h2 with hids hranges
    have hlen : ids.length = min acc.fnIds.length MAX_RESULTS := by
      rw [← hids]
      simp only [List.length_take]
      omega
    rcases List.eq_nil_or_concat acc.ranges with hnil | ⟨rs, r, hcat⟩
    · rw [hnil] at hch
      have h0 : acc.fnIds.length = 0 := hch.symm
      rw [hnil] at hranges
      simp only [fixLast, List.getLast?_nil] at hranges
      refine ⟨?_, by omega, ?_⟩
      · rw [← hranges]
        show (0 : Nat) = ids.length
        omega
      · rw [← hranges]
        simp
    · rw [List.concat_eq_append] at hcat
      rw [hcat] at hch hranges
      obtain ⟨g1, g2, g3⟩ := rangesChain_snoc_inv hch
      rw [fixLast, List.getLast?_concat, List.dropLast_concat] at hranges
      have hdrop2 : ∀ x ∈ rs, x.2 < MAX_RESULTS := by
        intro x hx
        refine hdrop x ?_
        rw [hcat, List.dropLast_concat]
        exact hx
      have hr1le : r.1 ≤ min acc.fnIds.length MAX_RESULTS := by
        rcases rangesChain_last g1 with h0 | ⟨x, hx, hxe⟩
        · omega
        · have := hdrop2 x hx
          omega
      refine ⟨?_, by omega, ?_⟩
      · rw [← hranges, hlen]
        exact rangesChain_snoc g1 hr1le
      · rw [← hranges, List.dropLast_concat]
        exact hdrop2

/-- Applying the per-range sorts along a gapless chain of ranges sorts each
segment in place: the result is the untouched prefix followed by the
per-segment sorts, concatenated. -/
theorem sortRanges_eq_flatten :
    ∀ (rs : List (Nat × Nat)) (l : List FnDetail) (s : Nat),
    RangesChain s rs l.length →
    sortRanges l rs =
      l.take s ++ ((segmentsOf l rs).map (fun seg => seg.insertionSort FdLe)).flatten := by
  intro rs
  induction rs with
  | nil =>
    intro l s hch
    have hs : s = l.length := hch
    subst hs
    simp [sortRanges, segmentsOf]
  | cons r rs ih =>
    intro l s hch
    obtain ⟨h1, h12, hch2⟩ := hch
    have hr2le : r.2 ≤ l.length := rangesChain_le hch2
    have htklen : (l.take r.1).length = r.1 := by
      simp only [List.length_take]
      omega
    have hMlen : (((l.drop r.1).take (r.2 - r.1)).insertionSort FdLe).length = r.2 - r.1 := by
      rw [List.length_insertionSort]
      simp only [List.length_take, List.length_drop]
      omega
    have hAlen : (l.take r.1 ++ ((l.drop r.1).take (r.2 - r.1)).insertionSort FdLe).length
        = r.2 := by
      simp only [List.length_append, htklen, hMlen]
      omega
    have hl1 : sortRange l r =
        (l.take r.1 ++ ((l.drop r.1).take (r.2 - r.1)).insertionSort FdLe) ++ l.drop r.2 := by
      unfold sortRange
      rw [List.append_assoc]
    have hl1len : (sortRange l r).length = l.length := by
      rw [hl1, List.length_append, hAlen, List.length_drop]
      omega
    have hch3 : RangesChain r.2 rs (sortRange l r).length := by
      rw [hl1len]
      exact hch2
    have hstep : sortRanges l (r :: rs) = sortRanges (sortRange l r) rs := rfl
    rw [hstep, ih (sortRange l r) r.2 hch3]
    have htake : (sortRange l r).take r.2 =
        l.take r.1 ++ ((l.drop r.1).take (r.2 - r.1)).insertionSort FdLe := by
      rw [hl1]
      exact List.take_left' hAlen
    have hdropeq : (sortRange l r).drop r.2 = l.drop r.2 := by
      rw [hl1, List.drop_append_eq_append_drop]
      rw [List.drop_eq_nil_of_le (by rw [hAlen]), hAlen, Nat.sub_self, List.drop_zero]
      simp
    have hseg : segmentsOf (sortRange l r) rs = segmentsOf l rs := by
      unfold segmentsOf
      refine List.map_congr_left ?_
      intro r2 hr2
      have hge : r.2 ≤ r2.1 := (rangesChain_mem hch2 r2 hr2).1
      have hd : (sortRange l r).drop r2.1 = l.drop r2.1 := by
        have e1 : (sortRange l r).drop r2.1 = ((sortRange l r).drop r.2).drop (r2.1 - r.2) := by
          rw [List.drop_drop]
          congr 1
          omega
        have e2 : l.drop r2.1 = (l.drop r.2).drop (r2.1 - r.2) := by
          rw [List.drop_drop]
          congr 1
          omega
        rw [e1, e2, hdropeq]
      rw [hd]
    rw [htake, hseg]
    have hsegcons : segmentsOf l (r :: rs) = (l.drop r.1).take (r.2 - r.1) :: segmentsOf l rs :=
      rfl
    rw [hsegcons, List.map_cons, List.flatten_cons, h1, List.append_assoc]

theorem sortRanges_length :
    ∀ (rs : List (Nat × Nat)) (l : List FnDetail) (s : Nat),
    RangesChain s rs l.length → (sortRanges l rs).length = l.length := by
  intro rs
  induction rs with
  | nil => intro l s _; rfl
  | cons r rs ih =>
    intro l s hch
    obtain ⟨h1, h12, hch2⟩ := hch
    have hr2le : r.2 ≤ l.length := rangesChain_le hch2
    have hl1len : (sortRange l r).length = l.length := by
      unfold sortRange
      simp only [List.length_append, List.length_take, List.length_insertionSort,
        List.length_drop]
      omega
    have hch3 : RangesChain r.2 rs (sortRange l r).length := by
      rw [hl1len]
      exact hch2
    have hstep : sortRanges l (r :: rs) = sortRanges (sortRange l r) rs := rfl
    rw [hstep, ih (sortRange l r) r.2 hch3, hl1len]

/-- C1: each executed depth of the progressive-widening loop appends
exactly the ids of the spec-side per-depth intersection (union of the
first `min(d, len)` candidates' id sets per column, intersected across
columns) that were not emitted at an earlier depth, recording the range
they occupy and marking them visited; and the depth counter ranges over
`1, …, longest column length − 1`. -/
theorem search_progressive_widening :
    (∀ (st : Store) (cols : List (ColKind × List String)) (d : Nat) (acc acc2 : SearchAcc),
      depthStep st cols d acc = some acc2 →
      ∃ newIds : List Nat,
        acc2.fnIds = acc.fnIds ++ newIds ∧
        newIds.Nodup ∧
        newIds.toFinset = specDepthIds st cols d \ acc.fnIdsSet ∧
        acc2.fnIdsSet = acc.fnIdsSet ∪ specDepthIds st cols d ∧
        acc2.ranges = acc.ranges ++ [(acc.fnIds.length, acc.fnIds.length + newIds.length)] ∧
        (acc.fnIdsSet = acc.fnIds.toFinset → acc2.fnIdsSet = acc2.fnIds.toFinset)) ∧
    (∀ cols : List (ColKind × List String),
      searchDepths cols = List.range' 1 (maxColLen cols - 1)) := by
  constructor
  · intro st cols d acc acc2 h
    unfold depthStep at h
    match hi : interIds st cols d, h with
    | some (some inter), h =>
      have hspec : inter = specDepthIds st cols d := interIds_spec hi
      have h3 : (⟨acc.fnIds ++ sortedIds (inter \ acc.fnIdsSet),
          acc.fnIdsSet ∪ (sortedIds (inter \ acc.fnIdsSet)).toFinset,
          acc.ranges ++ [(acc.fnIds.length,
            acc.fnIds.length + (sortedIds (inter \ acc.fnIdsSet)).length)]⟩ : SearchAcc) =
          acc2 := Option.some_inj.mp h
      subst h3
      refine ⟨sortedIds (inter \ acc.fnIdsSet), rfl, nodup_sortedIds _, ?_, ?_, rfl, ?_⟩
      · rw [toFinset_sortedIds, hspec]
      · rw [toFinset_sortedIds, hspec]
        show acc.fnIdsSet ∪ (specDepthIds st cols d \ acc.fnIdsSet) =
          acc.fnIdsSet ∪ specDepthIds st cols d
        exact Finset.union_sdiff_self_eq_union
      · intro hset
        show acc.fnIdsSet ∪ (sortedIds (inter \ acc.fnIdsSet)).toFinset =
          (acc.fnIds ++ sortedIds (inter \ acc.fnIdsSet)).toFinset
        rw [List.toFinset_append, hset]
  · intro cols
    rfl

/-- C1 at a concrete input: one param column with two candidates, depth 1. -/
theorem search_progressive_widening_witness :
    ∃ newIds : List Nat,
      (⟨[0], {0}, [(0, 1)]⟩ : SearchAcc).fnIds = (⟨[], ∅, []⟩ : SearchAcc).fnIds ++ newIds ∧
      newIds.Nodup ∧
      newIds.toFinset =
        specDepthIds stOne [(ColKind.paramTree, ["u8", "zzz"])] 1 \
          (⟨[], ∅, []⟩ : SearchAcc).fnIdsSet ∧
      (⟨[0], {0}, [(0, 1)]⟩ : SearchAcc).fnIdsSet =
        (⟨[], ∅, []⟩ : SearchAcc).fnIdsSet ∪
          specDepthIds stOne [(ColKind.paramTree, ["u8", "zzz"])] 1 ∧
      (⟨[0], {0}, [(0, 1)]⟩ : SearchAcc).ranges =
        (⟨[], ∅, []⟩ : SearchAcc).ranges ++
          [((⟨[], ∅, []⟩ : SearchAcc).fnIds.length,
            (⟨[], ∅, []⟩ : SearchAcc).fnIds.length + newIds.length)] ∧
      ((⟨[], ∅, []⟩ : SearchAcc).fnIdsSet = (⟨[], ∅, []⟩ : SearchAcc).fnIds.toFinset →
        (⟨[0], {0}, [(0, 1)]⟩ : SearchAcc).fnIdsSet =
          (⟨[0], {0}, [(0, 1)]⟩ : SearchAcc).fnIds.toFinset) :=
  search_progressive_widening.1 stOne [(ColKind.paramTree, ["u8", "zzz"])] 1
    ⟨[], ∅, []⟩ ⟨[0], {0}, [(0, 1)]⟩ (by decide)

/-- C9: when the longest candidate column has length exactly 1, the
exclusive loop bound `1..max_candidate_depth` makes the widening loop run
zero iterations, so the result is empty even though the single candidates
may have non-empty id sets. -/
theorem single_candidate_columns_empty (st : Store) (cols : List (ColKind × List String))
    (h : maxColLen cols = 1) : searchCore st cols = some [] := by
  unfold searchCore searchIds searchDepths
  rw [h]
  simp only [runDepths, fixLast, resolveIds, sortRanges]
  rfl

/-- C9 at a concrete input: the single candidate owns a non-empty id set,
yet the search returns nothing. -/
theorem single_candidate_columns_empty_witness :
    maxColLen [(ColKind.paramTree, ["u8"])] = 1 ∧
    lookupTy stOne.param "u8" ≠ ∅ ∧
    searchCore stOne [(ColKind.paramTree, ["u8"])] = some [] :=
  ⟨by decide, by decide,
    single_candidate_columns_empty stOne [(ColKind.paramTree, ["u8"])] (by decide)⟩

/-- C4: a successful search returns at most `MAX_RESULTS` (500) entries;
moreover in the id-producing stage the truncated id list respects the cap
and every recorded depth-range except the last ends strictly below the
cap — the widening loop stops as soon as the cap is reached, so the
truncation can only shrink the last recorded range. -/
theorem search_result_capped :
    (∀ (st : Store) (cols : List (ColKind × List String)) (ret : List FnDetail),
      searchCore st cols = some ret → ret.length ≤ MAX_RESULTS) ∧
    (∀ (st : Store) (cols : List (ColKind × List String)) (ids : List Nat)
      (ranges : List (Nat × Nat)), searchIds st cols = some (ids, ranges) →
      ids.length ≤ MAX_RESULTS ∧ ∀ r ∈ ranges.dropLast, r.2 < MAX_RESULTS) := by
  constructor
  · intro st cols ret h
    unfold searchCore at h
    match hsi : searchIds st cols, h with
    | some (ids, ranges), h =>
      have h2 : (match resolveIds st ids with
          | none => none
          | some pre => some (sortRanges pre ranges)) = some ret := h
      match hres : resolveIds st ids, h2 with
      | some pre, h2 =>
        have h3 : sortRanges pre ranges = ret := Option.some_inj.mp h2
        obtain ⟨hch, hle, -⟩ := searchIds_chain hsi
        have hplen : pre.length = ids.length :=
          mapM_treeGet_length (by simpa [resolveIds] using hres)
        have hch2 : RangesChain 0 ranges pre.length := by
          rw [hplen]
          exact hch
        rw [← h3, sortRanges_length ranges pre 0 hch2, hplen]
        exact hle
  · intro st cols ids ranges h
    obtain ⟨-, h2, h3⟩ := searchIds_chain h
    exact ⟨h2, h3⟩

/-- C4 at a concrete input. -/
theorem search_result_capped_witness :
    searchCore stOne [(ColKind.paramTree, ["u8", "zzz"])] = some [fdOne] ∧
    ([fdOne] : List FnDetail).length ≤ MAX_RESULTS :=
  ⟨by decide, search_result_capped.1 stOne [(ColKind.paramTree, ["u8", "zzz"])] [fdOne]
    (by decide)⟩

/-- C5: a successful search result is the concatenation, in depth order, of
its depth-bands: the recorded ranges form a gapless chain over the resolved
list, each band of the result is the stable `(crate, display)`-sort of the
corresponding band of the resolved list — a permutation of it, sorted — and
entries never move across band boundaries. -/
theorem depth_bands_sorted (st : Store) (cols : List (ColKind × List String))
    (ret : List FnDetail) (h : searchCore st cols = some ret) :
    ∃ (ids : List Nat) (ranges : List (Nat × Nat)) (pre : List FnDetail),
      searchIds st cols = some (ids, ranges) ∧
      resolveIds st ids = some pre ∧
      RangesChain 0 ranges pre.length ∧
      ret = ((segmentsOf pre ranges).map (fun seg => seg.insertionSort FdLe)).flatten ∧
      ∀ seg ∈ segmentsOf pre ranges,
        (seg.insertionSort FdLe).Perm seg ∧ List.Sorted FdLe (seg.insertionSort FdLe) := by
  unfold searchCore at h
  match hsi : searchIds st cols, h with
  | some (ids, ranges), h =>
    have h2 : (match resolveIds st ids with
        | none => none
        | some pre => some (sortRanges pre ranges)) = some ret := h
    match hres : resolveIds st ids, h2 with
    | some pre, h2 =>
      have h3 : sortRanges pre ranges = ret := Option.some_inj.mp h2
      obtain ⟨hch, -, -⟩ := searchIds_chain hsi
      have hplen : pre.length = ids.length :=
        mapM_treeGet_length (by simpa [resolveIds] using hres)
      have hch2 : RangesChain 0 ranges pre.length := by
        rw [hplen]
        exact hch
      refine ⟨ids, ranges, pre, rfl, hres, hch2, ?_, ?_⟩
      · rw [← h3, sortRanges_eq_flatten ranges pre 0 hch2]
        simp
      · intro seg _
        exact ⟨List.perm_insertionSort FdLe seg, List.sorted_insertionSort FdLe seg⟩

/-- C5 at a concrete input: the resolved band `[f2, f1]` is re-sorted to
`[f1, f2]` inside its single depth-band. -/
theorem depth_bands_sorted_witness :
    ∃ (ids : List Nat) (ranges : List (Nat × Nat)) (pre : List FnDetail),
      searchIds stTwo [(ColKind.retTree, ["bool", "zzz"])] = some (ids, ranges) ∧
      resolveIds stTwo ids = some pre ∧
      RangesChain 0 ranges pre.length ∧
      [fdOne, fdNil] =
        ((segmentsOf pre ranges).map (fun seg => seg.insertionSort FdLe)).flatten ∧
      ∀ seg ∈ segmentsOf pre ranges,
        (seg.insertionSort FdLe).Perm seg ∧ List.Sorted FdLe (seg.insertionSort FdLe) :=
  depth_bands_sorted stTwo [(ColKind.retTree, ["bool", "zzz"])] [fdOne, fdNil] (by decide)

/-- C10 (amended): the candidate-lookup `expect` aborts the search exactly
when an *examined* candidate has no entry in its tree. If every candidate
of every column is a key of the corresponding tree the id-producing stage
cannot abort. Conversely, take any candidate `ct` lying within the first
`min(d, column length)` entries of its column for a depth `d` the loop
executes — `d` is one of the iterated depths (`searchDepths cols` splits
as `pre ++ d :: post`) and the loop runs the depths before it without
aborting, ending strictly below the cap, so it neither broke nor stopped
before reaching `d`: if `ct` has no entry in the column's tree, the whole
search aborts. A candidate the loop never examines triggers no abort (see
the counterexample). -/
theorem candidate_lookup_abort :
    (∀ (st : Store) (cols : List (ColKind × List String)),
      (∀ c ∈ cols, ∀ ct ∈ c.2, (treeGet (colTreeOf st c.1) ct).isSome) →
      (searchIds st cols).isSome) ∧
    (∀ (st : Store) (cols : List (ColKind × List String)) (c : ColKind × List String)
      (ct : String) (d : Nat) (pre post : List Nat) (acc0 : SearchAcc),
      c ∈ cols → searchDepths cols = pre ++ d :: post →
      ct ∈ c.2.take (min d c.2.length) →
      treeGet (colTreeOf st c.1) ct = none →
      runDepths st cols pre ⟨[], ∅, []⟩ = some acc0 →
      acc0.fnIds.length < MAX_RESULTS →
      searchIds st cols = none) := by
  constructor
  · intro st cols hall
    by_cases hnil : cols = []
    · subst hnil
      rfl
    · have hstep : ∀ d acc, (depthStep st cols d acc).isSome := by
        intro d acc
        obtain ⟨s, hs⟩ := interIds_someSome hnil
          (fun c hc => colLookupUnion_isSome (hall c hc))
        unfold depthStep
        rw [hs]
        rfl
      have hrun : ∀ ds acc, (runDepths st cols ds acc).isSome := by
        intro ds
        induction ds with
        | nil => intro acc; simp [runDepths]
        | cons d ds ih =>
          intro acc
          unfold runDepths
          match hsd : depthStep st cols d acc with
          | none =>
            have h2 := hstep d acc
            rw [hsd] at h2
            exact absurd h2 (by simp)
          | some acc2 =>
            have h3 : (if MAX_RESULTS ≤ acc2.fnIds.length then some acc2
                else runDepths st cols ds acc2).isSome := by
              by_cases hb : MAX_RESULTS ≤ acc2.fnIds.length
              · rw [if_pos hb]
                rfl
              · rw [if_neg hb]
                exact ih acc2
            exact h3
      obtain ⟨acc, hacc⟩ :=
        Option.isSome_iff_exists.mp (hrun (searchDepths cols) ⟨[], ∅, []⟩)
      unfold searchIds
      rw [hacc]
      rfl
  · intro st cols c ct d pre post acc0 hmem hds hct hget hrun hlt
    have hcol : colLookupUnion st c d = none := colLookupUnion_none_of_mem hct hget
    have hinter : interIds st cols d = none := interIds_none_of_col hmem hcol
    have hstep : depthStep st cols d acc0 = none := by
      unfold depthStep
      rw [hinter]
    have hnone : runDepths st cols (d :: post) acc0 = none := by
      unfold runDepths
      rw [hstep]
    unfold searchIds
    rw [hds, runDepths_append_below pre (d :: post) ⟨[], ∅, []⟩ acc0 hrun hlt, hnone]

/-- C10 counterexample: candidate "zzz" has no entry in the param tree, and
is returned by the fuzzy index as the second candidate of the only column,
but the loop (depths `1..<2`) never examines it: the search returns a
result instead of aborting. -/
theorem candidate_lookup_abort_counterexample :
    treeGet stOne.param "zzz" = none ∧
    searchCore stOne [(ColKind.paramTree, ["u8", "zzz"])] = some [fdOne] := by
  constructor
  · decide
  · decide

/-- C10 at concrete inputs: with every candidate bound, the id stage cannot
abort; with the unbound candidate "zzz" sitting *second* in its column —
examined first at the executed depth 2, after depth 1 already collected
id 0 — the whole search aborts. -/
theorem candidate_lookup_abort_witness :
    (searchIds stOne [(ColKind.paramTree, ["u8"]), (ColKind.retTree, ["bool"])]).isSome ∧
    treeGet stOne.param "zzz" = none ∧
    searchIds stOne [(ColKind.paramTree, ["u8", "zzz", "www"])] = none :=
  ⟨candidate_lookup_abort.1 stOne [(ColKind.paramTree, ["u8"]), (ColKind.retTree, ["bool"])]
      (by decide),
    by decide,
    candidate_lookup_abort.2 stOne [(ColKind.paramTree, ["u8", "zzz", "www"])]
      (ColKind.paramTree, ["u8", "zzz", "www"]) "zzz" 2 [1] [] ⟨[0], {0}, [(0, 1)]⟩
      (by decide) (by decide) (by decide) (by decide) (by decide) (by decide)⟩

/-- C7: the sentinel `<NOARGS>` is used on both paths — `add_crate` indexes
a zero-parameter signature under the sentinel param key, and a search
submitted with an empty (but present) parameter list runs as a single
param query for the literal sentinel term. -/
theorem sentinel_noargs_consistent :
    (∀ (st : Store) (name : String) (fds : List FnDetail) (st2 : Store) (k2 i : Nat)
      (fd : FnDetail), add_crate st name fds = some (st2, k2) → fds[i]? = some fd →
      fd.params = [] → (st.counter + i) ∈ lookupTy st2.param NOARGS) ∧
    (∀ (st : Store) (fuzzyRet fuzzyParam : String → List String) (r : Option String),
      search st fuzzyRet fuzzyParam (some []) r =
        search st fuzzyRet fuzzyParam (some [NOARGS]) r) := by
  constructor
  · intro st name fds st2 k2 i fd hadd hget hparams
    unfold add_crate at hadd
    obtain ⟨a, ha, h2⟩ := Option.bind_eq_some.mp hadd
    obtain ⟨-, -, hp, -⟩ := addFold_inv fds ⟨st.param, st.ret, st.fnTable, st.counter, []⟩ a ha
    have hst2 : st2.param = a.param := by
      have h3 := Option.some_inj.mp h2
      injection h3 with h4 h5
      rw [← h4]
    rw [hst2, hp NOARGS]
    refine Finset.mem_union_right _ ?_
    refine mem_addedParamIds_of_get st.counter hget ?_
    rw [effParams, hparams]
    simp
  · intro st fr fp r
    rfl

/-- C7 at a concrete input: the zero-parameter detail `fdNil`, added as the
only entry of a fresh crate, lands in the sentinel param-index set. -/
theorem sentinel_noargs_consistent_witness :
    ∃ st2 : Store, add_crate emptyStore "demo" [fdNil] = some (st2, 1) ∧
      0 ∈ lookupTy st2.param NOARGS :=
  ⟨⟨1, [("<NOARGS>", {0})], [("bool", {0})], [(0, fdNil)], [("demo", [0])]⟩, by decide,
    sentinel_noargs_consistent.1 emptyStore "demo" [fdNil]
      ⟨1, [("<NOARGS>", {0})], [("bool", {0})], [(0, fdNil)], [("demo", [0])]⟩ 1 0 fdNil
      (by decide) (by decide) (by decide)⟩

/-- C2 (amended): on a reachable store whose crate tree does not yet bind
the crate name, `add_crate` immediately followed by `purge_crate` of the
same name restores the fn table and the crate index exactly, and restores
the param and ret indices up to lookup — every type string maps to the same
id set, with an absent key read as the empty set. (As stated over *all*
stores and with tree-level equality the claim fails: the purge writes empty
sets back under the keys the apply created instead of deleting them — see
the counterexample — and the counter stays advanced.) -/
theorem apply_purge_roundtrip (st : Store) (name : String) (fds : List FnDetail)
    (hreach : Reachable st) (hname : treeGet st.crate name = none) :
    ∃ st2 st3, add_crate st name fds = some (st2, st.counter + fds.length) ∧
      purge_crate st2 name = some st3 ∧
      st3.fnTable = st.fnTable ∧
      st3.crate = st.crate ∧
      (∀ k, lookupTy st3.param k = lookupTy st.param k) ∧
      (∀ k, lookupTy st3.ret k = lookupTy st.ret k) ∧
      st3.counter = st.counter + fds.length :=
  add_then_purge name fds (reachable_inv hreach) hname

/-- C2 counterexample: applying one `u8 → bool` signature to the empty
store and purging it leaves the param tree holding `"u8" ↦ ∅` — not the
empty tree the store started with, so the four collections are not all
restored exactly. -/
theorem apply_purge_roundtrip_counterexample :
    add_crate emptyStore "c" [fdOne] = some (stOne, 1) ∧
    purge_crate stOne "c" = some ⟨1, [("u8", ∅)], [("bool", ∅)], [], []⟩ ∧
    (⟨1, [("u8", ∅)], [("bool", ∅)], [], []⟩ : Store).param ≠ emptyStore.param := by
  refine ⟨by decide, by decide, by decide⟩

/-- C2 at a concrete input: the empty store is reachable and has no crate
entry, so the roundtrip theorem applies to it. -/
theorem apply_purge_roundtrip_witness :
    ∃ st2 st3, add_crate emptyStore "c" [fdOne] =
        some (st2, emptyStore.counter + [fdOne].length) ∧
      purge_crate st2 "c" = some st3 ∧
      st3.fnTable = emptyStore.fnTable ∧
      st3.crate = emptyStore.crate ∧
      (∀ k, lookupTy st3.param k = lookupTy emptyStore.param k) ∧
      (∀ k, lookupTy st3.ret k = lookupTy emptyStore.ret k) ∧
      st3.counter = emptyStore.counter + [fdOne].length :=
  apply_purge_roundtrip emptyStore "c" [fdOne] Reachable.empty rfl

/-- C3 (amended): during a purge, the removal of an id from its ret-type
set is asserted — the per-detail step aborts fatally exactly when the id is
absent from the ret-type set — while the removals from param-type sets
deliberately tolerate absence (`let _didremove`), which legitimately occurs
when a function lists the same parameter type twice. -/
theorem purge_removal_assertion :
    ∀ (p r : List (String × Finset Nat)) (idfd : Nat × FnDetail),
      purgeDetail (p, r) idfd = none ↔ idfd.1 ∉ lookupTy r idfd.2.ret := by
  intro p r idfd
  unfold purgeDetail
  by_cases hmem : idfd.1 ∈ (treeGet r idfd.2.ret).getD ∅
  · rw [if_pos hmem]
    simp [lookupTy, hmem]
  · rw [if_neg hmem]
    simp [lookupTy, hmem]

/-- C3 counterexample: on the crate holding one `(u8, u8) → bool` function,
the second param-set removal finds the id already gone, yet the actual
purge completes; the spec-worded strict purge, which asserts every param
removal, aborts. -/
theorem purge_removal_assertion_counterexample :
    purge_crate_spec stDup "c" = none ∧
    purge_crate stDup "c" = some ⟨1, [("u8", ∅)], [("bool", ∅)], [], []⟩ := by
  refine ⟨by decide, by decide⟩

/-- C6: in every store reachable by successful apply/purge transactions
from the empty store, each fn-table id lies in exactly one ret-index set
and in at least one param-index set (the sentinel set for zero-parameter
functions); and inserting an id into a ret-type set already containing it
is the fatal `assert!(isnew)`, aborting the transaction. -/
theorem fn_ids_ret_unique_param_covered :
    (∀ st : Store, Reachable st → ∀ id fd, treeGet st.fnTable id = some fd →
      (∃! k, id ∈ lookupTy st.ret k) ∧ (∃ k, id ∈ lookupTy st.param k)) ∧
    (∀ (a : AddState) (fd : FnDetail), a.fnId ∈ lookupTy a.ret fd.ret →
      addDetail a fd = none) := by
  constructor
  · intro st hreach id fd hfd
    have hinv := reachable_inv hreach
    constructor
    · refine ⟨fd.ret, (hinv.retMem id fd hfd fd.ret).mpr rfl, ?_⟩
      intro k hk
      exact (hinv.retMem id fd hfd k).mp hk
    · have heffne : effParams fd ≠ [] := by
        unfold effParams
        by_cases hp : fd.params.isEmpty
        · rw [if_pos hp]
          simp
        · rw [if_neg hp]
          intro hc
          rw [hc] at hp
          simp at hp
      match heff : effParams fd with
      | [] =>
        exact absurd heff heffne
      | k :: rest =>
        refine ⟨k, (hinv.paramMem id fd hfd k).mpr ?_⟩
        rw [heff]
        exact List.mem_cons_self _ _
  · intro a fd h
    unfold addDetail
    rw [if_pos (by simpa [lookupTy] using h)]

/-- C6 at a concrete input: the store with one `u8 → bool` function,
reached by one apply from the empty store. -/
theorem fn_ids_ret_unique_param_covered_witness :
    (∃! k, 0 ∈ lookupTy stOne.ret k) ∧ (∃ k, 0 ∈ lookupTy stOne.param k) :=
  fn_ids_ret_unique_param_covered.1 stOne
    (Reachable.add Reachable.empty
      (show add_crate emptyStore "c" [fdOne] = some (stOne, 1) by decide))
    0 fdOne (by decide)

/-- C8: a successful `add_crate` advances the counter by exactly the batch
size, returns the advanced counter, records under the crate name the
consecutive block of ids starting at the old counter — ids that, on an
invariant-satisfying store, were never bound before (never reused) — and a
successful `purge_crate` leaves the counter untouched. -/
theorem fn_ids_monotonic :
    (∀ (st : Store) (name : String) (fds : List FnDetail) (st2 : Store) (k2 : Nat),
      add_crate st name fds = some (st2, k2) →
      st2.counter = st.counter + fds.length ∧ k2 = st2.counter ∧
      treeGet st2.crate name = some (List.range' st.counter fds.length) ∧
      (StoreInv st → ∀ id ∈ List.range' st.counter fds.length,
        treeGet st.fnTable id = none)) ∧
    (∀ (st : Store) (name : String) (st2 : Store),
      purge_crate st name = some st2 → st2.counter = st.counter) := by
  constructor
  · intro st name fds st2 k2 h
    unfold add_crate at h
    obtain ⟨a, ha, h2⟩ := Option.bind_eq_some.mp h
    obtain ⟨g1, g2, -, -⟩ := addFold_inv fds ⟨st.param, st.ret, st.fnTable, st.counter, []⟩ a ha
    have g1b : a.fnId = st.counter + fds.length := g1
    have g2b : a.fnIds = List.range' st.counter fds.length := by simpa using g2
    have h3 := Option.some_inj.mp h2
    injection h3 with h4 h5
    subst h5
    rw [← h4]
    refine ⟨g1b, rfl, ?_, ?_⟩
    · show treeGet (treeInsert st.crate name a.fnIds) name = _
      rw [treeGet_treeInsert, if_pos rfl, g2b]
    · intro hinv id hid
      exact storeInv_fnDom hinv id (List.mem_range'_1.mp hid).1
  · intro st name st2 h
    unfold purge_crate at h
    match hcg : treeGet st.crate name, h with
    | none, h =>
      have h2 := Option.some_inj.mp h
      rw [← h2]
    | some fnIds, h =>
      obtain ⟨r, h1, h⟩ := Option.bind_eq_some.mp h
      obtain ⟨pr, h2, h⟩ := Option.bind_eq_some.mp h
      have h3 := Option.some_inj.mp h
      rw [← h3]

/-- C8 at a concrete input: one apply to the empty store assigns id 0 and
advances the counter to 1; purging leaves the counter at 1. -/
theorem fn_ids_monotonic_witness :
    (stOne.counter = emptyStore.counter + [fdOne].length ∧ (1 : Nat) = stOne.counter ∧
      treeGet stOne.crate "c" = some (List.range' emptyStore.counter [fdOne].length) ∧
      (StoreInv emptyStore → ∀ id ∈ List.range' emptyStore.counter [fdOne].length,
        treeGet emptyStore.fnTable id = none)) ∧
    (⟨1, [("u8", ∅)], [("bool", ∅)], [], []⟩ : Store).counter = stOne.counter :=
  ⟨fn_ids_monotonic.1 emptyStore "c" [fdOne] stOne 1 (by decide),
    fn_ids_monotonic.2 stOne "c" ⟨1, [("u8", ∅)], [("bool", ∅)], [], []⟩ (by decide)⟩
